import Mathlib

/-!
Shallow embedding of the crossword-builder repository (Rust) and proofs about it.

Source files embedded: `src/grid.rs`, `src/puzzle.rs`, `src/dictionary.rs`,
constants from `src/main.rs`.  `puzzle.rs` contains a private textual copy of the
`Grid`/`Cell` code of `grid.rs`; the copies are identical, so a single Lean
definition embeds both.

Modelling conventions:
* Rust strings are modelled as `List Char`; byte buffers as `List Nat` (byte values).
* Fallible Rust functions returning `Result` become `Except`; a Rust panic
  (`unwrap` on `None`, failed `assert!`, division by zero, out-of-range index)
  is modelled by an outer `Option` whose `none` is the panic, wherever a panic
  is reachable.  `Grid.set`/`Grid.get` are total here because the source
  documents out-of-range access as a caller bug ("callers must pre-validate
  bounds"); every theorem about them carries the in-range hypotheses.
* `char::is_alphabetic` (Unicode Alphabetic) is modelled by ASCII `Char.isAlpha`,
  and the case-insensitive comparison of the `(?i)` regex (Unicode simple case
  folding) by `Char.toLower` equality; the claims under study only exercise
  ASCII, where the two coincide with the Rust behaviour.
* Randomness (`rand::thread_rng`) is made explicit: a coin-flip stream
  `Nat → Bool` for `gen_bool` and a stream `Nat → Fin 26` for
  `gen_range(b'A'..b'Z'+1)`; the unbounded `loop` of `random_black` runs on
  explicit fuel, returning the state reached when the fuel ends.
-/

set_option linter.unusedVariables false

namespace Crossword

/-- Constant `PERCENT_BLACK` from `main.rs`. -/
def PERCENT_BLACK : Nat := 16

/-- Constant `MAX_WORD_LEN` from `main.rs`. -/
def MAX_WORD_LEN : Nat := 30

/-- The cell of a crossword grid (`Cell` in `grid.rs`). -/
inductive Cell where
  | Black : Cell
  | Empty : Cell
  | Letter : Char → Cell
deriving DecidableEq, Repr

/-- Parse errors of `Grid::from_bytes` (`GridError` in `grid.rs`).  The
`Utf8Error` payload of `NonUtf8` (the byte position of the decode failure) is
abstracted away: no claim inspects it. -/
inductive GridError where
  | InvalidPuzzleFormat : GridError
  | NonUtf8 : GridError
deriving DecidableEq, Repr

/-- Validation errors (`PuzzleError` in `puzzle.rs`); string payloads are
`List Char`. -/
inductive PuzzleError where
  | NotSymmetric : PuzzleError
  | TooManyBlackSquares : Nat → PuzzleError
  | WordTooShort : List Char → PuzzleError
  | RepeatWord : List Char → PuzzleError
  | MadeUpWord : List Char → PuzzleError
  | FileCreationError : List Char → PuzzleError
  | FileOpenError : List Char → PuzzleError
  | ParseError : GridError → PuzzleError
deriving DecidableEq, Repr

/-- The grid: a vector of rows of cells (`Grid(pub Vec<Vec<Cell>>)`). -/
structure Grid where
  rows : List (List Cell)
deriving DecidableEq, Repr

/-- Embedding of Rust `slice::split` / `str::split` with separator predicate
`p`: splits at every separator element, keeping empty segments (an empty input
yields one empty segment, as in Rust). -/
def splitP {α : Type} (p : α → Bool) : List α → List (List α)
  | [] => [[]]
  | a :: rest =>
    if p a then
      [] :: splitP p rest
    else
      match splitP p rest with
      | [] => [[a]]
      | r :: rs => (a :: r) :: rs

/-- The ASCII white-space characters of Rust `char::is_ascii_whitespace`. -/
def isAsciiWhitespace (c : Char) : Bool :=
  [' ', '\t', '\n', '\x0c', '\r'].contains c

/-- The Unicode `White_Space` characters, the set tested by Rust
`char::is_whitespace` (used by `str::trim`). -/
def isUnicodeWhitespace (c : Char) : Bool :=
  ['\t', '\n', '\x0b', '\x0c', '\r', ' ', '\x85', '\xa0', ' ',
   ' ', ' ', ' ', ' ', ' ', ' ', ' ',
   ' ', ' ', ' ', ' ', ' ', ' ', ' ',
   ' ', '　'].contains c

/-- Embedding of Rust `str::trim`: strip leading and trailing Unicode
white-space. -/
def trimChars (s : List Char) : List Char :=
  ((s.dropWhile isUnicodeWhitespace).reverse.dropWhile isUnicodeWhitespace).reverse

/-- Embedding of Rust `str::split_ascii_whitespace`: split on ASCII
white-space and drop empty tokens. -/
def splitAsciiWhitespace (s : List Char) : List (List Char) :=
  (splitP isAsciiWhitespace s).filter (fun t => t ≠ [])

/-- `Cell::from_str` of `grid.rs`: trim the token and classify it by its FIRST
character (`c.chars().next().unwrap()`).  `none` models the `unwrap` panic on a
token that trims to the empty string. -/
def Cell.from_str (s : List Char) : Option (Except GridError Cell) :=
  match trimChars s with
  | [] => none
  | c :: _ =>
    if c = '▩' then some (Except.ok Cell.Black)
    else if c = '▢' then some (Except.ok Cell.Empty)
    else if c.isAlpha then some (Except.ok (Cell.Letter c))
    else some (Except.error GridError.InvalidPuzzleFormat)

/-- `Cell::letter` of `grid.rs`: `none` models the `panic!("Not a letter")` on
a `Black` cell; `Empty` prints as the placeholder underscore. -/
def Cell.letter : Cell → Option Char
  | Cell.Black => none
  | Cell.Empty => some '_'
  | Cell.Letter l => some l

/-- `Cell::as_string` of `grid.rs`: the literal string of a run of cells;
`none` models the panic on a `Black` cell. -/
def Cell.as_string (cells : List Cell) : Option (List Char) :=
  cells.mapM Cell.letter

/-- `Grid::new`: an all-`Empty` square grid of the given side. -/
def Grid.new (size : Nat) : Grid :=
  ⟨List.replicate size (List.replicate size Cell.Empty)⟩

/-- `Grid::len`: the number of rows. -/
def Grid.len (g : Grid) : Nat :=
  g.rows.length

/-- The body of `Grid::transpose`: column `i` of the input becomes row `i`
of the output; the width is taken from row 0.  The `getD` default is never
used when every row has at least `(rows.headD []).length` cells. -/
def Grid.transposeRows (rows : List (List Cell)) : List (List Cell) :=
  (List.range (rows.headD []).length).map fun i =>
    rows.map fun row => row.getD i Cell.Empty

/-- `Grid::transpose` of `grid.rs`.  `none` models the `assert!(!self.0.is_empty())`
panic on an empty grid, and the `inner[i]` index panic when some row is
shorter than row 0. -/
def Grid.transpose (g : Grid) : Option Grid :=
  if g.rows = [] then none
  else if g.rows.all (fun row => (g.rows.headD []).length ≤ row.length) then
    some ⟨Grid.transposeRows g.rows⟩
  else none

/-- `Grid::set` (x = column, y = row).  Total: see the module comment on
out-of-range access. -/
def Grid.set (g : Grid) (x y : Nat) (v : Cell) : Grid :=
  ⟨g.rows.set y ((g.rows.getD y []).set x v)⟩

/-- `Grid::get` (x = column, y = row).  Total: see the module comment on
out-of-range access. -/
def Grid.get (g : Grid) (x y : Nat) : Cell :=
  (g.rows.getD y []).getD x Cell.Empty

/-- `Grid::get_row`. -/
def Grid.get_row (g : Grid) (row : Nat) : List Cell :=
  g.rows.getD row []

/-- `Grid::rotate_180`: reverse the row order, then reverse each row. -/
def Grid.rotate_180 (g : Grid) : Grid :=
  ⟨g.rows.reverse.map (fun row => row.reverse)⟩

/-- `Grid::is_square`: every row length equals the row count. -/
def Grid.is_square (g : Grid) : Except PuzzleError Unit :=
  if g.rows.all (fun row => row.length == g.len) then Except.ok ()
  else Except.error PuzzleError.NotSymmetric

/-- `Grid::black_squares_match`: the black squares of both grids are at the
same positions (scanned over this grid's square index range). -/
def Grid.black_squares_match (g other : Grid) : Bool :=
  (List.range g.len).all fun y =>
    (List.range g.len).all fun x =>
      !((g.get x y == Cell.Black && other.get x y != Cell.Black) ||
        (other.get x y == Cell.Black && g.get x y != Cell.Black))

/-- `Grid::is_symmetric`: the black squares are unchanged under 180-degree
rotation. -/
def Grid.is_symmetric (g : Grid) : Except PuzzleError Unit :=
  if g.black_squares_match g.rotate_180 then Except.ok ()
  else Except.error PuzzleError.NotSymmetric

/-- Number of `Black` cells, counted row-major (`cells_row_major_iter`). -/
def Grid.countBlack (g : Grid) : Nat :=
  g.rows.flatten.countP (fun c => c == Cell.Black)

/-- `Grid::acceptable_black_square_count`: integer-percentage density check.
`none` models the Rust division-by-zero panic when the grid has no cells. -/
def Grid.acceptable_black_square_count (g : Grid) : Option (Except PuzzleError Unit) :=
  let size := g.len
  let total := size * size
  let black := g.countBlack
  if total = 0 then none
  else if black * 100 / total ≤ PERCENT_BLACK then some (Except.ok ())
  else some (Except.error (PuzzleError.TooManyBlackSquares PERCENT_BLACK))

/-- The loop of `Grid::ok_dist_to_black_or_edge`: the number of cells scanned
before the first `Black` cell (or the end of the slice). -/
def distToBlackOrEnd : List Cell → Nat
  | [] => 0
  | c :: rest => if c = Cell.Black then 0 else distToBlackOrEnd rest + 1

/-- `Grid::ok_dist_to_black_or_edge`: that distance must be exactly 0 or at
least 3. -/
def Grid.ok_dist_to_black_or_edge (row : List Cell) : Bool :=
  let dist := distToBlackOrEnd row
  dist == 0 || decide (3 ≤ dist)

/-- UTF-8 validation/decoding as performed by Rust `std::str::from_utf8`, as
a byte-at-a-time state machine: `need` pending continuation bytes, `acc` the
accumulated scalar value, `lo` the minimum legal value for the current
sequence (overlong rejection); surrogates and values above U+10FFFF are
rejected when a sequence completes.  It accepts exactly the minimal UTF-8
encodings of Unicode scalar values, like Rust. -/
def utf8Go : Nat → Nat → Nat → List Nat → Option (List Char)
  | 0, _, _, [] => some []
  | 0, _, _, b :: rest =>
    if b < 0x80 then (utf8Go 0 0 0 rest).map (fun cs => Char.ofNat b :: cs)
    else if b < 0xC2 then none
    else if b < 0xE0 then utf8Go 1 (b - 0xC0) 0x80 rest
    else if b < 0xF0 then utf8Go 2 (b - 0xE0) 0x800 rest
    else if b < 0xF5 then utf8Go 3 (b - 0xF0) 0x10000 rest
    else none
  | _ + 1, _, _, [] => none
  | need + 1, acc, lo, b :: rest =>
    if 0x80 ≤ b ∧ b < 0xC0 then
      if need = 0 then
        if acc * 0x40 + (b - 0x80) < lo then none
        else if 0xD800 ≤ acc * 0x40 + (b - 0x80) ∧ acc * 0x40 + (b - 0x80) < 0xE000 then
          none
        else if 0x110000 ≤ acc * 0x40 + (b - 0x80) then none
        else (utf8Go 0 0 0 rest).map (fun cs => Char.ofNat (acc * 0x40 + (b - 0x80)) :: cs)
      else utf8Go need (acc * 0x40 + (b - 0x80)) lo rest
    else none

/-- UTF-8 decoding of a whole buffer; `none` is the decode error of
`str::from_utf8`. -/
def utf8Decode (bytes : List Nat) : Option (List Char) :=
  utf8Go 0 0 0 bytes

/-- Minimal UTF-8 encoding of one scalar value (Rust `char::encode_utf8`). -/
def utf8EncodeChar (c : Char) : List Nat :=
  let n := c.toNat
  if n < 0x80 then [n]
  else if n < 0x800 then [0xC0 + n / 0x40, 0x80 + n % 0x40]
  else if n < 0x10000 then [0xE0 + n / 0x1000, 0x80 + n / 0x40 % 0x40, 0x80 + n % 0x40]
  else [0xF0 + n / 0x40000, 0x80 + n / 0x1000 % 0x40, 0x80 + n / 0x40 % 0x40, 0x80 + n % 0x40]

/-- UTF-8 encoding of a string (`str::as_bytes` of a built string). -/
def utf8Encode (s : List Char) : List Nat :=
  (s.map utf8EncodeChar).flatten

/-- One parsed row of `Grid::from_bytes`: map `Cell::from_str` over the tokens
and collect, short-circuiting at the first error (Rust
`collect::<Result<Vec<_>, _>>`); `none` propagates a `from_str` panic. -/
def parseRowCells : List (List Char) → Option (Except GridError (List Cell))
  | [] => some (Except.ok [])
  | t :: rest =>
    match Cell.from_str t with
    | none => none
    | some (Except.error e) => some (Except.error e)
    | some (Except.ok c) =>
      match parseRowCells rest with
      | none => none
      | some (Except.error e) => some (Except.error e)
      | some (Except.ok cs) => some (Except.ok (c :: cs))

/-- The row loop of `Grid::from_bytes`: rows of length 0 are skipped; a
non-empty row is UTF-8 decoded (failure is `NonUtf8`), then split on ASCII
white-space and parsed cell by cell. -/
def fromBytesRows : List (List Nat) → Option (Except GridError (List (List Cell)))
  | [] => some (Except.ok [])
  | row :: rest =>
    if row.length > 0 then
      match utf8Decode row with
      | none => some (Except.error GridError.NonUtf8)
      | some s =>
        match parseRowCells (splitAsciiWhitespace s) with
        | none => none
        | some (Except.error e) => some (Except.error e)
        | some (Except.ok cells) =>
          match fromBytesRows rest with
          | none => none
          | some (Except.error e) => some (Except.error e)
          | some (Except.ok more) => some (Except.ok (cells :: more))
    else fromBytesRows rest

/-- `Grid::from_bytes`: split the buffer into rows on the newline byte 10 and
parse the rows. -/
def Grid.from_bytes (buf : List Nat) : Option (Except GridError Grid) :=
  match fromBytesRows (splitP (fun b => b == 10) buf) with
  | none => none
  | some (Except.error e) => some (Except.error e)
  | some (Except.ok rows) => some (Except.ok ⟨rows⟩)

/-- Display text of one cell (`impl fmt::Display for Cell`): the glyph
followed by one space. -/
def Cell.display : Cell → List Char
  | Cell.Black => ['▩', ' ']
  | Cell.Empty => ['▢', ' ']
  | Cell.Letter l => [l, ' ']

/-- Display text of a grid (`impl fmt::Display for Grid`): each row is its
cells' display texts followed by a newline. -/
def Grid.display (g : Grid) : List Char :=
  (g.rows.map (fun row => (row.map Cell.display).flatten ++ ['\n'])).flatten

/-- The per-dictionary-query pattern (`SparseWord` in `dictionary.rs`).  The
source stores the compiled regex `"(?i)" ++ chars` and the length; here
`pattern` is that character sequence (wildcard positions as a dot), which
determines the regex. -/
structure SparseWord where
  pattern : List Char
  len : Nat
deriving DecidableEq, Repr

/-- A pattern position as written into the regex: a required character
verbatim, a wildcard as a dot. -/
def patChar (o : Option Char) : Char :=
  o.getD '.'

/-- `SparseWord::new`: the regex text `"(?i)" ++ chars` and the pattern
length.  The source then calls `Regex::new(..).expect(..)`, which panics
when that text is not a valid regex (for example a pattern holding a lone
opening parenthesis) and gives any unescaped metacharacter its regex meaning
(a plus becomes a quantifier); both behaviours lie outside the fragment the
matcher model below interprets, so the theorems about `matches` carry an
alphabetic-pattern hypothesis — the only patterns the program builds, since
its pattern characters come from `Letter` grid cells. -/
def SparseWord.new (vec : List (Option Char)) : SparseWord :=
  ⟨vec.map patChar, vec.length⟩

/-- One regex position of the modelled fragment against one word character:
a dot (a wildcard position) matches any character except a newline, and an
alphabetic pattern character matches itself case-insensitively.  A regex
metacharacter compiled unescaped by the source is NOT a literal, so this
function is faithful only on the alphabetic fragment stated as a hypothesis
of the `matches` theorems (see `SparseWord.new`). -/
def matchChar (pc c : Char) : Bool :=
  if pc = '.' then c != '\n' else pc.toLower == c.toLower

/-- The patterns on which the matcher model is faithful to the source's
compiled regex: every required character is alphabetic, so it is neither a
regex metacharacter nor the source of a `Regex::new` panic. -/
def alphaPattern (vec : List (Option Char)) : Bool :=
  vec.all fun o =>
    match o with
    | some c => c.isAlpha
    | none => true

/-- The whole pattern against the word at the current offset. -/
def matchHere : List Char → List Char → Bool
  | [], _ => true
  | _ :: _, [] => false
  | pc :: ps, c :: cs => matchChar pc c && matchHere ps cs

/-- Unanchored regex search (`Regex::is_match`): try every starting offset. -/
def matchSearch (pat : List Char) : List Char → Bool
  | [] => matchHere pat []
  | c :: cs => matchHere pat (c :: cs) || matchSearch pat cs

/-- `SparseWord::matches`: `self.regex.is_match(word)` — an unanchored,
case-insensitive search; the stored length is NOT consulted. -/
def SparseWord.matches (p : SparseWord) (w : List Char) : Bool :=
  matchSearch p.pattern w

/-- The length-partitioned word index (`Dictionary` in `dictionary.rs`).  Each
`HashSet<String>` bucket is modelled as a duplicate-free list in some
iteration order (hash-set iteration order is implementation-defined). -/
structure Dictionary where
  buckets : List (List (List Char))
deriving DecidableEq, Repr

/-- `Dictionary::new`: `size` empty buckets. -/
def Dictionary.new (size : Nat) : Dictionary :=
  ⟨List.replicate size []⟩

/-- `Dictionary::get`: the bucket at `index`, if any. -/
def Dictionary.get (d : Dictionary) (index : Nat) : Option (List (List Char)) :=
  d.buckets[index]?

/-- `Dictionary::insert`: add the word to the bucket of its length;
out-of-range lengths are dropped.  Returns the set-insert result. -/
def Dictionary.insert (d : Dictionary) (word : List Char) : Dictionary × Bool :=
  match d.buckets[word.length]? with
  | none => (d, false)
  | some bucket =>
    if bucket.contains word then (d, false)
    else (⟨d.buckets.set word.length (bucket ++ [word])⟩, true)

/-- `Dictionary::is_valid`: membership in the bucket of the word's length. -/
def Dictionary.is_valid (d : Dictionary) (word : List Char) : Bool :=
  match d.buckets[word.length]? with
  | some bucket => bucket.contains word
  | none => false

/-- The bucket loop of `Dictionary::suggest_words`: push each matching word,
and after each iteration return if `count` suggestions have been reached.
Note the bound is tested AFTER the conditional push, so with `count = 0` one
matching word can still be pushed before the loop stops. -/
def suggestLoop (pw : SparseWord) (count : Nat) :
    List (List Char) → List (List Char) → List (List Char)
  | [], acc => acc
  | w :: rest, acc =>
    let acc' := if pw.matches w then acc ++ [w] else acc
    if count ≤ acc'.length then acc' else suggestLoop pw count rest acc'

/-- `Dictionary::suggest_words`: scan the bucket whose index is the pattern
length. -/
def Dictionary.suggest_words (d : Dictionary) (partial_word : SparseWord) (count : Nat) :
    List (List Char) :=
  match d.buckets[partial_word.len]? with
  | some words => suggestLoop partial_word count words []
  | none => []

/-- Rust `char::to_ascii_lowercase`. -/
def toAsciiLowerChar (c : Char) : Char :=
  if 'A' ≤ c ∧ c ≤ 'Z' then Char.ofNat (c.toNat + 32) else c

/-- Rust `str::to_ascii_lowercase`. -/
def toAsciiLower (s : List Char) : List Char :=
  s.map toAsciiLowerChar

/-- The puzzle: a name, the grid side, the grid and its cached transpose
(`Puzzle` in `puzzle.rs`). -/
structure Puzzle where
  name : List Char
  size : Nat
  cells : Grid
  transpose : Grid
deriving DecidableEq, Repr

/-- `Puzzle::new`: an all-`Empty` grid and its transpose; `none` is the
transpose assertion panic (reached exactly when `size = 0`). -/
def Puzzle.new (name : List Char) (size : Nat) : Option Puzzle :=
  match (Grid.new size).transpose with
  | none => none
  | some t => some ⟨name, size, Grid.new size, t⟩

/-- `Puzzle::from_grid`: wrap a parsed grid; the side is the row count and
`none` is again the transpose panic. -/
def Puzzle.from_grid (name : List Char) (cells : Grid) : Option Puzzle :=
  match cells.transpose with
  | none => none
  | some t => some ⟨name, cells.len, cells, t⟩

/-- Word extraction from a row list: split each row on `Black` and drop the
empty runs (`words_across_iter` / `words_down_iter`). -/
def wordsOfRows (rows : List (List Cell)) : List (List Cell) :=
  (rows.map (fun row =>
    (splitP (fun c => c == Cell.Black) row).filter (fun s => s ≠ []))).flatten

/-- `Puzzle::words_across_iter`. -/
def Puzzle.words_across (p : Puzzle) : List (List Cell) :=
  wordsOfRows p.cells.rows

/-- `Puzzle::words_down_iter`: the same splitting applied to the cached
transpose. -/
def Puzzle.words_down (p : Puzzle) : List (List Cell) :=
  wordsOfRows p.transpose.rows

/-- `Puzzle::all_words_iter`: across then down. -/
def Puzzle.all_words (p : Puzzle) : List (List Cell) :=
  p.words_across ++ p.words_down

/-- The loop of `Puzzle::no_repeat_words`; `seen` is the key set of the
`HashMap`, and words of length 0 are skipped.  `none` propagates an
`as_string` panic. -/
def noRepeatGo (seen : List (List Char)) : List (List Cell) → Option (Except PuzzleError Unit)
  | [] => some (Except.ok ())
  | w :: rest =>
    match Cell.as_string w with
    | none => none
    | some s =>
      if s.length > 0 then
        if seen.contains s then some (Except.error (PuzzleError.RepeatWord s))
        else noRepeatGo (s :: seen) rest
      else noRepeatGo seen rest

/-- `Puzzle::no_repeat_words`. -/
def Puzzle.no_repeat_words (p : Puzzle) : Option (Except PuzzleError Unit) :=
  noRepeatGo [] p.all_words

/-- The loop of `Puzzle::no_too_short_words`: fail on the first word of
length below 3. -/
def noShortGo : List (List Cell) → Option (Except PuzzleError Unit)
  | [] => some (Except.ok ())
  | w :: rest =>
    match Cell.as_string w with
    | none => none
    | some s =>
      if s.length < 3 then some (Except.error (PuzzleError.WordTooShort s))
      else noShortGo rest

/-- `Puzzle::no_too_short_words`. -/
def Puzzle.no_too_short_words (p : Puzzle) : Option (Except PuzzleError Unit) :=
  noShortGo p.all_words

/-- Rust `Vec::<String>::join(", ")`. -/
def joinCommaSpace (words : List (List Char)) : List Char :=
  List.intercalate [',', ' '] words

/-- The loop of `Puzzle::valid_words`: collect (in iteration order) every word
whose ASCII-lowercase form is not in the dictionary; at the end report them
all in one `MadeUpWord` error, or succeed if none were collected. -/
def validWordsGo (d : Dictionary) (invalid : List (List Char)) :
    List (List Cell) → Option (Except PuzzleError Unit)
  | [] =>
    if invalid = [] then some (Except.ok ())
    else some (Except.error (PuzzleError.MadeUpWord (joinCommaSpace invalid)))
  | w :: rest =>
    match Cell.as_string w with
    | none => none
    | some s =>
      if d.is_valid (toAsciiLower s) then validWordsGo d invalid rest
      else validWordsGo d (invalid ++ [s]) rest

/-- `Puzzle::valid_words`.  The process-global `DICTIONARY` (loaded from a
word file at startup) is passed explicitly. -/
def Puzzle.valid_words (p : Puzzle) (d : Dictionary) : Option (Except PuzzleError Unit) :=
  validWordsGo d [] p.all_words

/-- `Puzzle::validate_words`: no repeats, then minimum length, then
dictionary membership; the first two short-circuit. -/
def Puzzle.validate_words (p : Puzzle) (d : Dictionary) : Option (Except PuzzleError Unit) :=
  match p.no_repeat_words with
  | none => none
  | some (Except.error e) => some (Except.error e)
  | some (Except.ok _) =>
    match p.no_too_short_words with
    | none => none
    | some (Except.error e) => some (Except.error e)
    | some (Except.ok _) => p.valid_words d

/-- `Puzzle::validate_base`: square, symmetric, density, then minimum word
length, each stage only if the previous passed. -/
def Puzzle.validate_base (p : Puzzle) : Option (Except PuzzleError Unit) :=
  match p.cells.is_square with
  | Except.error e => some (Except.error e)
  | Except.ok _ =>
    match p.cells.is_symmetric with
    | Except.error e => some (Except.error e)
    | Except.ok _ =>
      match p.cells.acceptable_black_square_count with
      | none => none
      | some (Except.error e) => some (Except.error e)
      | some (Except.ok _) => p.no_too_short_words

/-- `Puzzle::valid_black_placement`: the four directional slices around the
candidate cell (left and up reversed so every slice is scanned outward) must
each pass the spacing rule. -/
def Puzzle.valid_black_placement (p : Puzzle) (x y : Nat) : Bool :=
  let row := p.cells.get_row y
  let col := p.transpose.get_row x
  let left := (row.take x).reverse
  let right := row.drop (x + 1)
  let up := (col.take y).reverse
  let down := col.drop (y + 1)
  Grid.ok_dist_to_black_or_edge left && Grid.ok_dist_to_black_or_edge right &&
    Grid.ok_dist_to_black_or_edge up && Grid.ok_dist_to_black_or_edge down

/-- `Puzzle::set`: the single write path, updating the primary grid at
`(x, y)` and the cached transpose at `(y, x)`. -/
def Puzzle.set (p : Puzzle) (x y : Nat) (value : Cell) : Puzzle :=
  { p with cells := p.cells.set x y value, transpose := p.transpose.set y x value }

/-- `Puzzle::set_symmetric`: fan one write out to the four rotationally
symmetric coordinates. -/
def Puzzle.set_symmetric (p : Puzzle) (x y : Nat) (val : Cell) : Puzzle :=
  (((p.set x y val).set (p.size - (y + 1)) x val).set
      (p.size - (x + 1)) (p.size - (y + 1)) val).set y (p.size - (x + 1)) val

/-- `Puzzle::get`. -/
def Puzzle.get (p : Puzzle) (x y : Nat) : Cell :=
  p.cells.get x y

/-- One step of the `random_letters` double loop: an `Empty` cell at
`(col, row)` becomes `Letter` of the next random uppercase letter (the Rust
`rng.gen_range(b'A'..b'Z' + 1)`), consuming one value of the stream. -/
def randomLetterStep (rng : Nat → Fin 26) (st : Puzzle × Nat) (row col : Nat) : Puzzle × Nat :=
  match st.1.cells.get col row with
  | Cell.Empty => (st.1.set col row (Cell.Letter (Char.ofNat (65 + (rng st.2).val))), st.2 + 1)
  | _ => st

/-- `Puzzle::random_letters`: scan the whole grid row-major. -/
def Puzzle.random_letters (p : Puzzle) (rng : Nat → Fin 26) : Puzzle :=
  ((List.range p.size).foldl (fun st row =>
    (List.range p.size).foldl (fun st col => randomLetterStep rng st row col) st) (p, 0)).1

/-- The column loop of `random_black`.  State: puzzle, `black_set`, next coin
index.  The returned flag is true when the Rust function returned (threshold
reached); a successful placement below the threshold is the Rust `break` out
of the column loop. -/
def rbCols (coin : Nat → Bool) (thresh4 row : Nat) :
    List Nat → Puzzle × Nat × Nat → (Puzzle × Nat × Nat) × Bool
  | [], st => (st, false)
  | col :: rest, (p, bs, k) =>
    if (p.cells.get col row != Cell.Black) && p.valid_black_placement col row then
      if coin k then
        ((p.set_symmetric col row Cell.Black, bs + 1, k + 1), decide (thresh4 ≤ bs + 1))
      else rbCols coin thresh4 row rest (p, bs, k + 1)
    else rbCols coin thresh4 row rest (p, bs, k)

/-- The row loop of `random_black`: scan each quadrant row unless the column
loop reported that the function returned. -/
def rbRows (coin : Nat → Bool) (thresh4 quadrant : Nat) :
    List Nat → Puzzle × Nat × Nat → (Puzzle × Nat × Nat) × Bool
  | [], st => (st, false)
  | row :: rest, st =>
    match rbCols coin thresh4 row (List.range quadrant) st with
    | (st1, true) => (st1, true)
    | (st1, false) => rbRows coin thresh4 quadrant rest st1

/-- The unbounded `loop` of `random_black`, on explicit fuel: when the fuel
ends the puzzle reached so far is returned. -/
def rbLoop (coin : Nat → Bool) (thresh4 quadrant : Nat) :
    Nat → Puzzle × Nat × Nat → Puzzle
  | 0, st => st.1
  | fuel + 1, st =>
    match rbRows coin thresh4 quadrant (List.range quadrant) st with
    | (st1, true) => st1.1
    | (st1, false) => rbLoop coin thresh4 quadrant fuel st1

/-- `Puzzle::random_black`: no-op below size 5; otherwise scan the top-left
quadrant repeatedly, placing symmetric blacks at randomly accepted valid
positions until a quarter of the density threshold is placed. -/
def Puzzle.random_black (p : Puzzle) (coin : Nat → Bool) (fuel : Nat) : Puzzle :=
  if p.size < 5 then p
  else
    let quadrant := max 2 (p.size / 2)
    let upper_threshold_black := p.size * p.size * PERCENT_BLACK / 100
    rbLoop coin (upper_threshold_black / 4) quadrant fuel (p, 0, 0)

/-! ### Derived predicates and concrete instances used by the verification -/

instance exceptDecEq {ε α : Type} [DecidableEq ε] [DecidableEq α] :
    DecidableEq (Except ε α) := fun x y =>
  match x, y with
  | Except.ok a, Except.ok b =>
    if h : a = b then isTrue (by rw [h])
    else isFalse (by intro he; cases he; exact h rfl)
  | Except.ok _, Except.error _ => isFalse (by intro he; cases he)
  | Except.error _, Except.ok _ => isFalse (by intro he; cases he)
  | Except.error e, Except.error f =>
    if h : e = f then isTrue (by rw [h])
    else isFalse (by intro he; cases he; exact h rfl)

/-- The strings of a list of extracted words, `none` if any `as_string`
panics (never the case for words split on `Black`). -/
def asStrings : List (List Cell) → Option (List (List Char))
  | [] => some []
  | w :: rest =>
    match Cell.as_string w, asStrings rest with
    | some s, some l => some (s :: l)
    | _, _ => none

/-- A row list forming a square grid of side `n` (the property checked by
`Grid::is_square`, relative to an explicit side). -/
def SquareOf (n : Nat) (rows : List (List Cell)) : Prop :=
  rows.length = n ∧ ∀ row ∈ rows, row.length = n

instance (n : Nat) (rows : List (List Cell)) : Decidable (SquareOf n rows) :=
  inferInstanceAs (Decidable (rows.length = n ∧ ∀ row ∈ rows, row.length = n))

/-- The well-formedness claim C2 speaks about: the puzzle's grid is square of
its size and the cached transpose equals the grid's transpose. -/
def GoodP (n : Nat) (p : Puzzle) : Prop :=
  p.size = n ∧ SquareOf n p.cells.rows ∧ Grid.transpose p.cells = some p.transpose

/-- The cells the round-trip claim C7 ranges over: `Black`, `Empty`, or an
alphabetic `Letter`. -/
def allowedCell : Cell → Bool
  | Cell.Black => true
  | Cell.Empty => true
  | Cell.Letter l => l.isAlpha

/-- The token shape demanded by claim C4: exactly the black glyph, the empty
glyph, or a single alphabetic character. -/
def specGoodToken (t : List Char) : Bool :=
  t == ['▩'] || t == ['▢'] ||
    (match t with
     | [c] => c.isAlpha
     | _ => false)

/-- The classification `Cell::from_str` actually performs: the FIRST character
of the trimmed token is a glyph or alphabetic (the rest of the token is
ignored). -/
def goodFirstToken (t : List Char) : Bool :=
  match trimChars t with
  | [] => false
  | c :: _ => c == '▩' || c == '▢' || c.isAlpha

/-- A token `Cell::from_str` rejects: its trimmed form is non-empty and its
first character is neither glyph nor alphabetic. -/
def badFirstToken (t : List Char) : Bool :=
  match trimChars t with
  | [] => false
  | c :: _ => !(c == '▩' || c == '▢' || c.isAlpha)

/-- A 5-by-5 grid with exactly 4 black squares: 4 · 100 / 25 = 16, the
density boundary. -/
def boundaryGrid : Grid :=
  ⟨[[Cell.Black, Cell.Black, Cell.Black, Cell.Black, Cell.Empty],
    [Cell.Empty, Cell.Empty, Cell.Empty, Cell.Empty, Cell.Empty],
    [Cell.Empty, Cell.Empty, Cell.Empty, Cell.Empty, Cell.Empty],
    [Cell.Empty, Cell.Empty, Cell.Empty, Cell.Empty, Cell.Empty],
    [Cell.Empty, Cell.Empty, Cell.Empty, Cell.Empty, Cell.Empty]]⟩

/-- The SIT/ACE/PEN grid of the repository's unit tests. -/
def sitGrid : Grid :=
  ⟨[[Cell.Letter 'S', Cell.Letter 'I', Cell.Letter 'T'],
    [Cell.Letter 'A', Cell.Letter 'C', Cell.Letter 'E'],
    [Cell.Letter 'P', Cell.Letter 'E', Cell.Letter 'N']]⟩

/-- The SIT/ACE/PEN puzzle: the grid above with its (correct) cached
transpose SAP/ICE/TEN. -/
def sitPuzzle : Puzzle :=
  ⟨['x'], 3, sitGrid,
   ⟨[[Cell.Letter 'S', Cell.Letter 'A', Cell.Letter 'P'],
     [Cell.Letter 'I', Cell.Letter 'C', Cell.Letter 'E'],
     [Cell.Letter 'T', Cell.Letter 'E', Cell.Letter 'N']]⟩⟩

/-- A dictionary whose only word is "act" (in the length-3 bucket). -/
def dictActOnly : Dictionary :=
  ⟨[[], [], [], [['a', 'c', 't']]]⟩

/-- A grid with an empty first row, used against the round-trip claim C7. -/
def emptyRowGrid : Grid :=
  ⟨[[], [Cell.Letter 'a']]⟩

/-- The single display glyph of a cell (the first of the two characters
`Cell`'s `Display` writes). -/
def glyphChar : Cell → Char
  | Cell.Black => '▩'
  | Cell.Empty => '▢'
  | Cell.Letter l => l

/-! ### General list helper lemmas -/

theorem getD_set_eq {α : Type} (l : List α) (i : Nat) (a d : α) (h : i < l.length) :
    (l.set i a).getD i d = a := by
  rw [List.getD_eq_getElem _ _ (by simpa using h)]
  exact List.getElem_set_self _

theorem getD_set_ne {α : Type} (l : List α) {i j : Nat} (a d : α) (h : i ≠ j) :
    (l.set i a).getD j d = l.getD j d := by
  by_cases hj : j < l.length
  · rw [List.getD_eq_getElem _ _ (by simpa using hj), List.getD_eq_getElem _ _ hj]
    exact List.getElem_set_ne h _
  · have h1 : (l.set i a).length ≤ j := by simpa using Nat.le_of_not_lt hj
    have h2 : l.length ≤ j := Nat.le_of_not_lt hj
    rw [List.getD_eq_default _ _ h1, List.getD_eq_default _ _ h2]

theorem getD_map_range {α : Type} (f : Nat → α) {n i : Nat} (d : α) (h : i < n) :
    ((List.range n).map f).getD i d = f i := by
  rw [List.getD_eq_getElem _ _ (by simpa using h)]
  rw [List.getElem_map, List.getElem_range]

theorem getD_map_of_lt {α β : Type} (g : α → β) (l : List α) {j : Nat} (d : β) (d' : α)
    (h : j < l.length) : (l.map g).getD j d = g (l.getD j d') := by
  rw [List.getD_eq_getElem _ _ (by simpa using h), List.getD_eq_getElem _ _ h]
  exact List.getElem_map g

theorem getD_replicate_self {α : Type} {n : Nat} (i : Nat) (a : α) :
    (List.replicate n a).getD i a = a := by
  induction n generalizing i with
  | zero => cases i <;> rfl
  | succ n ih => cases i <;> simp [List.replicate_succ, ih]

/-! ### Claim C8: the spacing rule -/

theorem distToBlackOrEnd_eq_takeWhile (row : List Cell) :
    distToBlackOrEnd row = (row.takeWhile (fun c => !(c == Cell.Black))).length := by
  induction row with
  | nil => rfl
  | cons c rest ih =>
    by_cases h : c = Cell.Black
    · subst h
      simp [distToBlackOrEnd, List.takeWhile_cons]
    · simp [distToBlackOrEnd, List.takeWhile_cons, h, ih]

theorem distToBlackOrEnd_of_no_black (row : List Cell) (h : ∀ c ∈ row, c ≠ Cell.Black) :
    distToBlackOrEnd row = row.length := by
  induction row with
  | nil => rfl
  | cons c rest ih =>
    have hc : c ≠ Cell.Black := h c (List.mem_cons_self c rest)
    simp [distToBlackOrEnd, hc, ih (fun x hx => h x (List.mem_cons_of_mem c hx))]

theorem distToBlackOrEnd_of_first_at (row : List Cell) (k : Nat)
    (hk : k < row.length) (hb : row.getD k Cell.Empty = Cell.Black)
    (hfirst : ∀ j, j < k → row.getD j Cell.Empty ≠ Cell.Black) :
    distToBlackOrEnd row = k := by
  induction row generalizing k with
  | nil => simp at hk
  | cons c rest ih =>
    cases k with
    | zero =>
      simp only [List.getD_cons_zero] at hb
      simp [distToBlackOrEnd, hb]
    | succ k =>
      have hc : c ≠ Cell.Black := by
        have := hfirst 0 (Nat.succ_pos _)
        simpa using this
      simp only [distToBlackOrEnd, if_neg hc]
      have := ih k (by simpa using hk) (by simpa using hb)
        (fun j hj => by
          have := hfirst (j + 1) (by omega)
          simpa using this)
      omega

theorem ok_dist_eq_true_iff (row : List Cell) :
    Grid.ok_dist_to_black_or_edge row = true ↔
      (distToBlackOrEnd row = 0 ∨ 3 ≤ distToBlackOrEnd row) := by
  simp [Grid.ok_dist_to_black_or_edge]

/-- C8: `ok_dist_to_black_or_edge` is true on a black-free slice of length 0
or at least 3, true when the first cell is `Black`, false when the first
`Black` is at position 1 or 2, true when it is at position 3 or later; in
general it is true exactly when the run before the first `Black` (the whole
slice if none) has length 0 or at least 3. -/
theorem ok_dist_to_black_or_edge_spec :
    (∀ row : List Cell, (∀ c ∈ row, c ≠ Cell.Black) →
        (row.length = 0 ∨ 3 ≤ row.length) → Grid.ok_dist_to_black_or_edge row = true) ∧
    (∀ rest : List Cell, Grid.ok_dist_to_black_or_edge (Cell.Black :: rest) = true) ∧
    (∀ (row : List Cell) (k : Nat), k < row.length →
        row.getD k Cell.Empty = Cell.Black →
        (∀ j, j < k → row.getD j Cell.Empty ≠ Cell.Black) →
        ((k = 1 ∨ k = 2) → Grid.ok_dist_to_black_or_edge row = false) ∧
          (3 ≤ k → Grid.ok_dist_to_black_or_edge row = true)) ∧
    (∀ row : List Cell, Grid.ok_dist_to_black_or_edge row = true ↔
        ((row.takeWhile (fun c => !(c == Cell.Black))).length = 0 ∨
          3 ≤ (row.takeWhile (fun c => !(c == Cell.Black))).length)) := by
  refine ⟨?_, ?_, ?_, ?_⟩
  · intro row hnb hlen
    rw [ok_dist_eq_true_iff, distToBlackOrEnd_of_no_black row hnb]
    exact hlen
  · intro rest
    rw [ok_dist_eq_true_iff]
    left
    simp [distToBlackOrEnd]
  · intro row k hk hb hfirst
    have hd : distToBlackOrEnd row = k := distToBlackOrEnd_of_first_at row k hk hb hfirst
    constructor
    · intro h12
      have hnot : ¬ Grid.ok_dist_to_black_or_edge row = true := by
        rw [ok_dist_eq_true_iff, hd]
        omega
      simpa using hnot
    · intro h3
      rw [ok_dist_eq_true_iff, hd]
      right
      exact h3
  · intro row
    rw [ok_dist_eq_true_iff, distToBlackOrEnd_eq_takeWhile]

/-- C8 witness: concrete instances of each hypothesis-bearing conjunct. -/
theorem ok_dist_to_black_or_edge_spec_witness :
    Grid.ok_dist_to_black_or_edge [Cell.Empty, Cell.Empty, Cell.Empty] = true ∧
    Grid.ok_dist_to_black_or_edge [Cell.Empty, Cell.Black, Cell.Empty] = false := by
  constructor
  · exact ok_dist_to_black_or_edge_spec.1 [Cell.Empty, Cell.Empty, Cell.Empty]
      (by decide) (Or.inr (by decide))
  · exact (ok_dist_to_black_or_edge_spec.2.2.1 [Cell.Empty, Cell.Black, Cell.Empty] 1
      (by decide) (by decide) (by decide)).1 (Or.inl rfl)

/-! ### Claim C6: the black-square density check -/

/-- C6: on a square grid of positive side `n`, the density check succeeds
exactly when `black * 100 / (n * n)` (truncating division) is at most 16,
fails with `TooManyBlackSquares 16` exactly otherwise, and the exact-16%
boundary passes. -/
theorem acceptable_black_square_count_spec (g : Grid) (n : Nat)
    (hn : 1 ≤ n) (hsq : SquareOf n g.rows) :
    (g.acceptable_black_square_count = some (Except.ok ()) ↔
      g.countBlack * 100 / (n * n) ≤ 16) ∧
    (g.acceptable_black_square_count =
        some (Except.error (PuzzleError.TooManyBlackSquares 16)) ↔
      ¬ g.countBlack * 100 / (n * n) ≤ 16) ∧
    (g.countBlack * 100 = 16 * (n * n) →
      g.acceptable_black_square_count = some (Except.ok ())) := by
  have hlen : g.len = n := hsq.1
  have htot : ¬ n * n = 0 := by
    have := Nat.mul_pos hn hn
    omega
  have hrepr : g.acceptable_black_square_count =
      if g.countBlack * 100 / (n * n) ≤ 16 then some (Except.ok ())
      else some (Except.error (PuzzleError.TooManyBlackSquares 16)) := by
    simp only [Grid.acceptable_black_square_count, hlen, PERCENT_BLACK, if_neg htot]
  by_cases hc : g.countBlack * 100 / (n * n) ≤ 16
  · rw [hrepr, if_pos hc]
    refine ⟨⟨fun _ => hc, fun _ => rfl⟩, ⟨fun h => ?_, fun h => absurd hc h⟩, fun _ => rfl⟩
    cases h
  · rw [hrepr, if_neg hc]
    refine ⟨⟨fun h => ?_, fun h => absurd h hc⟩, ⟨fun _ => hc, fun _ => rfl⟩, fun heq => ?_⟩
    · cases h
    · exfalso
      apply hc
      rw [heq, Nat.mul_div_cancel 16 (Nat.mul_pos hn hn)]

/-- C6 witness: the 5-by-5 boundary grid with exactly 16% black passes. -/
theorem acceptable_black_square_count_spec_witness :
    boundaryGrid.acceptable_black_square_count = some (Except.ok ()) :=
  (acceptable_black_square_count_spec boundaryGrid 5 (by decide) (by decide)).2.2 (by decide)

/-! ### Claims C10 and C9: puzzle construction and the small-size no-op -/

theorem grid_new_rows (size : Nat) :
    (Grid.new size).rows = List.replicate size (List.replicate size Cell.Empty) := rfl

theorem headD_replicate_pos {α : Type} {n : Nat} (a : α) (d : α) (h : 1 ≤ n) :
    (List.replicate n a).headD d = a := by
  obtain ⟨m, rfl⟩ : ∃ m, n = m + 1 := ⟨n - 1, by omega⟩
  rw [List.replicate_succ]
  rfl

theorem grid_new_zero_transpose : (Grid.new 0).transpose = none := rfl

theorem grid_new_transpose_of_pos (size : Nat) (h : 1 ≤ size) :
    (Grid.new size).transpose =
      some ⟨Grid.transposeRows (List.replicate size (List.replicate size Cell.Empty))⟩ := by
  have hne : (Grid.new size).rows ≠ [] := by
    rw [grid_new_rows]
    intro he
    have hlen := congrArg List.length he
    simp at hlen
    omega
  have hall : (Grid.new size).rows.all
      (fun row => ((Grid.new size).rows.headD []).length ≤ row.length) = true := by
    rw [List.all_eq_true]
    intro row hrow
    rw [grid_new_rows] at hrow
    rw [List.mem_replicate] at hrow
    rw [grid_new_rows, hrow.2, headD_replicate_pos _ _ h]
    simp
  unfold Grid.transpose
  rw [if_neg hne, if_pos hall]
  rfl

theorem puzzle_new_fields {name : List Char} {size : Nat} {p : Puzzle}
    (h : Puzzle.new name size = some p) :
    p.name = name ∧ p.size = size ∧ p.cells = Grid.new size ∧
      (Grid.new size).transpose = some p.transpose := by
  unfold Puzzle.new at h
  cases ht : (Grid.new size).transpose with
  | none => rw [ht] at h; cases h
  | some t =>
    rw [ht] at h
    injection h with h2
    subst h2
    exact ⟨rfl, rfl, rfl, rfl⟩

/-- C10: `Puzzle::new` with size 0 panics (the grid has no rows and the
transpose assertion fires), while for every positive size it succeeds with a
size-by-size all-`Empty` grid. -/
theorem puzzle_new_spec :
    (∀ name : List Char, (Grid.new 0).rows = [] ∧ (Grid.new 0).transpose = none ∧
        Puzzle.new name 0 = none) ∧
    (∀ (name : List Char) (size : Nat), 1 ≤ size →
        ∃ p : Puzzle, Puzzle.new name size = some p ∧ p.name = name ∧ p.size = size ∧
          p.cells.rows.length = size ∧
          ∀ row ∈ p.cells.rows, row.length = size ∧ ∀ c ∈ row, c = Cell.Empty) := by
  constructor
  · intro name
    exact ⟨rfl, rfl, rfl⟩
  · intro name size h
    refine ⟨⟨name, size, Grid.new size,
      ⟨Grid.transposeRows (List.replicate size (List.replicate size Cell.Empty))⟩⟩, ?_, rfl, rfl,
      ?_, ?_⟩
    · unfold Puzzle.new
      rw [grid_new_transpose_of_pos size h]
    · rw [grid_new_rows]
      exact List.length_replicate size _
    · intro row hrow
      rw [grid_new_rows] at hrow
      rw [List.mem_replicate] at hrow
      refine ⟨by rw [hrow.2]; exact List.length_replicate size _, ?_⟩
      intro c hc
      rw [hrow.2] at hc
      rw [List.mem_replicate] at hc
      exact hc.2

/-- C10 witness: size 0 panics; size 3 yields the 3-by-3 all-empty puzzle. -/
theorem puzzle_new_spec_witness :
    Puzzle.new ['x'] 0 = none ∧
    ∃ p : Puzzle, Puzzle.new ['x'] 3 = some p ∧ p.name = ['x'] ∧ p.size = 3 ∧
      p.cells.rows.length = 3 ∧
      ∀ row ∈ p.cells.rows, row.length = 3 ∧ ∀ c ∈ row, c = Cell.Empty :=
  ⟨(puzzle_new_spec.1 ['x']).2.2, puzzle_new_spec.2 ['x'] 3 (by decide)⟩

/-- C9: `random_black` on a puzzle of size below 5 is the identity, so a
freshly created puzzle of such a size keeps every cell of its grid and of its
cached transpose `Empty`. -/
theorem random_black_small_noop :
    (∀ (p : Puzzle) (coin : Nat → Bool) (fuel : Nat), p.size < 5 →
        p.random_black coin fuel = p) ∧
    (∀ (name : List Char) (size : Nat) (p : Puzzle) (coin : Nat → Bool) (fuel : Nat),
        size < 5 → Puzzle.new name size = some p →
        p.random_black coin fuel = p ∧
        (∀ row ∈ (p.random_black coin fuel).cells.rows, ∀ c ∈ row, c = Cell.Empty) ∧
        (∀ row ∈ (p.random_black coin fuel).transpose.rows, ∀ c ∈ row, c = Cell.Empty)) := by
  have hmain : ∀ (p : Puzzle) (coin : Nat → Bool) (fuel : Nat), p.size < 5 →
      p.random_black coin fuel = p := by
    intro p coin fuel h
    unfold Puzzle.random_black
    rw [if_pos h]
  refine ⟨hmain, ?_⟩
  intro name size p coin fuel hsize hnew
  obtain ⟨hname, hpsize, hcells, htrans⟩ := puzzle_new_fields hnew
  have hid := hmain p coin fuel (by rw [hpsize]; exact hsize)
  have hsz1 : 1 ≤ size := by
    by_contra hlt
    have h0 : size = 0 := by omega
    rw [h0, grid_new_zero_transpose] at htrans
    cases htrans
  refine ⟨hid, ?_, ?_⟩
  · rw [hid, hcells, grid_new_rows]
    intro row hrow c hc
    rw [List.mem_replicate] at hrow
    rw [hrow.2] at hc
    rw [List.mem_replicate] at hc
    exact hc.2
  · rw [hid]
    rw [grid_new_transpose_of_pos size hsz1] at htrans
    injection htrans with htrans
    rw [← htrans]
    intro row hrow c hc
    simp only [Grid.transposeRows, List.mem_map, List.mem_range] at hrow
    obtain ⟨i, hi, hrow⟩ := hrow
    rw [← hrow] at hc
    rw [List.mem_map] at hc
    obtain ⟨rr, hrr, hc⟩ := hc
    rw [List.mem_replicate] at hrr
    rw [← hc, hrr.2]
    exact getD_replicate_self i Cell.Empty

/-- C9 witness: `random_black` leaves the size-3 test puzzle unchanged. -/
theorem random_black_small_noop_witness :
    sitPuzzle.random_black (fun _ => true) 7 = sitPuzzle :=
  random_black_small_noop.1 sitPuzzle (fun _ => true) 7 (by decide)

/-! ### Claim C1: the sparse-word matcher -/

theorem getD_drop {α : Type} (s : List α) (k j : Nat) (d : α) (h : j < (s.drop k).length) :
    (s.drop k).getD j d = s.getD (k + j) d := by
  rw [List.getD_eq_getElem _ _ h, List.getD_eq_getElem _ _ (by simp at h ⊢; omega)]
  exact List.getElem_drop s

theorem matchHere_iff (pat s : List Char) :
    matchHere pat s = true ↔
      (pat.length ≤ s.length ∧
        ∀ j, j < pat.length → matchChar (pat.getD j '.') (s.getD j ' ') = true) := by
  induction pat generalizing s with
  | nil => simp [matchHere]
  | cons pc ps ih =>
    cases s with
    | nil =>
      simp [matchHere]
    | cons c cs =>
      simp only [matchHere, Bool.and_eq_true, ih, List.length_cons]
      constructor
      · rintro ⟨h1, h2, h3⟩
        refine ⟨by omega, ?_⟩
        intro j hj
        cases j with
        | zero => simpa using h1
        | succ j => simpa using h3 j (by omega)
      · rintro ⟨h1, h2⟩
        refine ⟨by simpa using h2 0 (by omega), by omega, ?_⟩
        intro j hj
        simpa using h2 (j + 1) (by omega)

theorem matchSearch_iff (pat s : List Char) :
    matchSearch pat s = true ↔
      ∃ k, k ≤ s.length ∧ matchHere pat (s.drop k) = true := by
  induction s with
  | nil =>
    simp only [matchSearch, List.length_nil]
    constructor
    · intro h
      exact ⟨0, Nat.le_refl 0, h⟩
    · rintro ⟨k, hk, h⟩
      have h0 : k = 0 := by omega
      rw [h0] at h
      exact h
  | cons c cs ih =>
    simp only [matchSearch, Bool.or_eq_true, ih, List.length_cons]
    constructor
    · rintro (h | ⟨k, hk, h⟩)
      · exact ⟨0, by omega, by simpa using h⟩
      · exact ⟨k + 1, by omega, by simpa using h⟩
    · rintro ⟨k, hk, h⟩
      cases k with
      | zero => exact Or.inl (by simpa using h)
      | succ k => exact Or.inr ⟨k, by omega, by simpa using h⟩

/-- C1 (amended): for the alphabetic patterns the program builds (on which
the unescaped regex compilation is literal and panic-free), `matches`
performs an unanchored case-insensitive search: it is true exactly when the
word has a contiguous run, at SOME offset, that satisfies the per-position
constraints; only for words of exactly the pattern length does this coincide
with the positional check the claim states. -/
theorem sparseword_matches_spec (vec : List (Option Char)) (w : List Char)
    (hvec : alphaPattern vec = true) :
    ((SparseWord.new vec).matches w = true ↔
      ∃ i, i + vec.length ≤ w.length ∧
        ∀ j, j < vec.length →
          matchChar ((vec.map patChar).getD j '.') (w.getD (i + j) ' ') = true) ∧
    (w.length = vec.length →
      ((SparseWord.new vec).matches w = true ↔
        ∀ j, j < vec.length →
          matchChar ((vec.map patChar).getD j '.') (w.getD j ' ') = true)) := by
  have hplen : (vec.map patChar).length = vec.length := List.length_map vec patChar
  have hmain : (SparseWord.new vec).matches w = true ↔
      ∃ i, i + vec.length ≤ w.length ∧
        ∀ j, j < vec.length →
          matchChar ((vec.map patChar).getD j '.') (w.getD (i + j) ' ') = true := by
    show matchSearch (vec.map patChar) w = true ↔ _
    rw [matchSearch_iff]
    constructor
    · rintro ⟨k, hk, hh⟩
      rw [matchHere_iff] at hh
      obtain ⟨hlen, hall⟩ := hh
      rw [hplen] at hlen
      rw [List.length_drop] at hlen
      refine ⟨k, by omega, ?_⟩
      intro j hj
      have hjd : j < (w.drop k).length := by
        rw [List.length_drop]
        omega
      have := hall j (by omega)
      rwa [getD_drop w k j ' ' hjd] at this
    · rintro ⟨i, hi, hall⟩
      refine ⟨i, by omega, ?_⟩
      rw [matchHere_iff]
      refine ⟨by rw [hplen, List.length_drop]; omega, ?_⟩
      intro j hj
      rw [hplen] at hj
      have hjd : j < (w.drop i).length := by
        rw [List.length_drop]
        omega
      rw [getD_drop w i j ' ' hjd]
      exact hall j hj
  refine ⟨hmain, ?_⟩
  intro hlen
  rw [hmain]
  constructor
  · rintro ⟨i, hi, hall⟩
    have hi0 : i = 0 := by omega
    intro j hj
    have := hall j hj
    rwa [hi0, Nat.zero_add] at this
  · intro hall
    refine ⟨0, by omega, ?_⟩
    intro j hj
    rw [Nat.zero_add]
    exact hall j hj

/-- C1 witness: the amended characterisation evaluated on pattern A.T and
word "act". -/
theorem sparseword_matches_spec_witness :
    (SparseWord.new [some 'A', none, some 'T']).matches ['a', 'c', 't'] = true :=
  ((sparseword_matches_spec [some 'A', none, some 'T'] ['a', 'c', 't'] (by decide)).2
    (by decide)).mpr (by decide)

/-- C1 counterexample: the length-3 pattern A.T matches the length-4 word
"fact" (the unanchored regex finds "act" inside it), so `matches` is not
exact-length as the claim states. -/
theorem sparseword_matches_counterexample :
    (SparseWord.new [some 'A', none, some 'T']).matches ['f', 'a', 'c', 't'] = true ∧
    ¬ (['f', 'a', 'c', 't'] : List Char).length =
        (SparseWord.new [some 'A', none, some 'T']).len := by
  decide

/-! ### Claim C3: word suggestion -/

theorem suggestLoop_mem (pw : SparseWord) (count : Nat) (words : List (List Char)) :
    ∀ (acc : List (List Char)) (w : List Char),
      w ∈ suggestLoop pw count words acc →
      w ∈ acc ∨ (w ∈ words ∧ pw.matches w = true) := by
  induction words with
  | nil =>
    intro acc w h
    rw [suggestLoop] at h
    exact Or.inl h
  | cons x rest ih =>
    intro acc w h
    simp only [suggestLoop] at h
    by_cases hm : pw.matches x = true
    · rw [if_pos hm] at h
      by_cases hc : count ≤ (acc ++ [x]).length
      · rw [if_pos hc] at h
        rcases List.mem_append.mp h with h1 | h1
        · exact Or.inl h1
        · right
          rw [List.mem_singleton] at h1
          rw [h1]
          exact ⟨List.mem_cons_self x rest, hm⟩
      · rw [if_neg hc] at h
        rcases ih (acc ++ [x]) w h with h1 | h1
        · rcases List.mem_append.mp h1 with h2 | h2
          · exact Or.inl h2
          · right
            rw [List.mem_singleton] at h2
            rw [h2]
            exact ⟨List.mem_cons_self x rest, hm⟩
        · exact Or.inr ⟨List.mem_cons_of_mem x h1.1, h1.2⟩
    · rw [if_neg hm] at h
      by_cases hc : count ≤ acc.length
      · rw [if_pos hc] at h
        exact Or.inl h
      · rw [if_neg hc] at h
        rcases ih acc w h with h1 | h1
        · exact Or.inl h1
        · exact Or.inr ⟨List.mem_cons_of_mem x h1.1, h1.2⟩

theorem suggestLoop_length_of_lt (pw : SparseWord) (count : Nat) (words : List (List Char)) :
    ∀ acc : List (List Char), acc.length < count →
      (suggestLoop pw count words acc).length ≤ count := by
  induction words with
  | nil =>
    intro acc h
    rw [suggestLoop]
    omega
  | cons x rest ih =>
    intro acc h
    simp only [suggestLoop]
    by_cases hm : pw.matches x = true
    · rw [if_pos hm]
      have hlen : (acc ++ [x]).length = acc.length + 1 := by simp
      by_cases hc : count ≤ (acc ++ [x]).length
      · rw [if_pos hc]
        omega
      · rw [if_neg hc]
        apply ih
        omega
    · rw [if_neg hm]
      by_cases hc : count ≤ acc.length
      · omega
      · rw [if_neg hc]
        exact ih acc h

theorem suggestLoop_length_zero (pw : SparseWord) (words : List (List Char))
    (acc : List (List Char)) :
    (suggestLoop pw 0 words acc).length ≤ acc.length + 1 := by
  cases words with
  | nil =>
    rw [suggestLoop]
    omega
  | cons x rest =>
    simp only [suggestLoop]
    by_cases hm : pw.matches x = true
    · rw [if_pos hm, if_pos (Nat.zero_le _)]
      simp
    · rw [if_neg hm, if_pos (Nat.zero_le _)]
      omega

/-- C3 (amended): every suggested word comes from the bucket indexed by the
pattern length and satisfies the matcher; the result holds at most `count`
words whenever `count` is at least 1, and at most ONE word (not zero) when
`count = 0`. -/
theorem suggest_words_spec (d : Dictionary) (pw : SparseWord) (count : Nat) :
    (∀ w ∈ d.suggest_words pw count,
        (∃ bucket, d.buckets[pw.len]? = some bucket ∧ w ∈ bucket) ∧
          pw.matches w = true) ∧
    (1 ≤ count → (d.suggest_words pw count).length ≤ count) ∧
    (d.suggest_words pw count).length ≤ max 1 count := by
  cases hb : d.buckets[pw.len]? with
  | none =>
    have hrepr : d.suggest_words pw count = [] := by
      unfold Dictionary.suggest_words
      rw [hb]
    rw [hrepr]
    refine ⟨fun w hw => absurd hw (List.not_mem_nil w), fun _ => by simp, by simp⟩
  | some bucket =>
    have hrepr : d.suggest_words pw count = suggestLoop pw count bucket [] := by
      unfold Dictionary.suggest_words
      rw [hb]
    rw [hrepr]
    refine ⟨?_, ?_, ?_⟩
    · intro w hw
      rcases suggestLoop_mem pw count bucket [] w hw with h | h
      · cases h
      · exact ⟨⟨bucket, rfl, h.1⟩, h.2⟩
    · intro hc
      exact suggestLoop_length_of_lt pw count bucket [] (by simpa using hc)
    · rcases Nat.eq_zero_or_pos count with h0 | h1
      · have hz := suggestLoop_length_zero pw bucket []
        rw [h0]
        simp only [List.length_nil, Nat.zero_add] at hz
        simpa using hz
      · have hle := suggestLoop_length_of_lt pw count bucket [] (by simpa using h1)
        exact Nat.le_trans hle (Nat.le_max_right 1 count)

/-- C3 witness: with count 1 the suggestion list has at most one element. -/
theorem suggest_words_spec_witness :
    (dictActOnly.suggest_words (SparseWord.new [some 'A', none, some 'T']) 1).length ≤ 1 :=
  (suggest_words_spec dictActOnly (SparseWord.new [some 'A', none, some 'T']) 1).2.1
    (by decide)

/-- C3 counterexample: with count 0 the function still returns one word,
because the bound is tested only after the conditional push; the claim's
"at most c words" and "empty for c = 0" both fail here. -/
theorem suggest_words_count_zero_counterexample :
    dictActOnly.suggest_words (SparseWord.new [some 'A', none, some 'T']) 0 =
      [['a', 'c', 't']] ∧
    ¬ (dictActOnly.suggest_words (SparseWord.new [some 'A', none, some 'T']) 0).length ≤ 0 := by
  decide

/-! ### Claim C5: aggregation of dictionary violations -/

theorem validWordsGo_eq (d : Dictionary) :
    ∀ (ws : List (List Cell)) (strs invalid : List (List Char)),
      asStrings ws = some strs →
      validWordsGo d invalid ws =
        (if invalid ++ strs.filter (fun s => !(d.is_valid (toAsciiLower s))) = [] then
          some (Except.ok ())
        else
          some (Except.error (PuzzleError.MadeUpWord (joinCommaSpace
            (invalid ++ strs.filter (fun s => !(d.is_valid (toAsciiLower s)))))))) := by
  intro ws
  induction ws with
  | nil =>
    intro strs invalid h
    simp only [asStrings, Option.some.injEq] at h
    subst h
    simp [validWordsGo]
  | cons w rest ih =>
    intro strs invalid h
    simp only [asStrings] at h
    cases hs : Cell.as_string w with
    | none => rw [hs] at h; cases h
    | some s =>
      cases hr : asStrings rest with
      | none => rw [hs, hr] at h; cases h
      | some srest =>
        rw [hs, hr] at h
        injection h with h
        subst h
        simp only [validWordsGo, hs]
        by_cases hv : d.is_valid (toAsciiLower s) = true
        · rw [if_pos hv, ih srest invalid hr]
          have hfil : (s :: srest).filter (fun t => !(d.is_valid (toAsciiLower t))) =
              srest.filter (fun t => !(d.is_valid (toAsciiLower t))) := by
            simp [List.filter_cons, hv]
          rw [hfil]
        · rw [if_neg hv, ih srest (invalid ++ [s]) hr]
          have hb : d.is_valid (toAsciiLower s) = false := by
            cases hbb : d.is_valid (toAsciiLower s) with
            | true => exact absurd hbb hv
            | false => rfl
          have hfil : (s :: srest).filter (fun t => !(d.is_valid (toAsciiLower t))) =
              s :: srest.filter (fun t => !(d.is_valid (toAsciiLower t))) := by
            simp [List.filter_cons, hb]
          rw [hfil, ← List.append_cons]

/-- C5: once the no-repeat and minimum-length stages pass, `validate_words`
runs the dictionary stage without failing fast: it reports ALL the words
missing from the dictionary (after ASCII-lowercasing) as one comma-joined
`MadeUpWord` error, and succeeds exactly when every extracted word is in the
dictionary. -/
theorem validate_words_aggregates (d : Dictionary) (p : Puzzle) (words : List (List Char))
    (hwords : asStrings p.all_words = some words)
    (h1 : p.no_repeat_words = some (Except.ok ()))
    (h2 : p.no_too_short_words = some (Except.ok ())) :
    p.validate_words d = p.valid_words d ∧
    p.valid_words d =
      (if words.filter (fun s => !(d.is_valid (toAsciiLower s))) = [] then
        some (Except.ok ())
      else
        some (Except.error (PuzzleError.MadeUpWord (joinCommaSpace
          (words.filter (fun s => !(d.is_valid (toAsciiLower s)))))))) ∧
    (p.validate_words d = some (Except.ok ()) ↔
      ∀ s ∈ words, d.is_valid (toAsciiLower s) = true) := by
  have heq1 : p.validate_words d = p.valid_words d := by
    unfold Puzzle.validate_words
    rw [h1, h2]
  have heq2 : p.valid_words d =
      (if words.filter (fun s => !(d.is_valid (toAsciiLower s))) = [] then
        some (Except.ok ())
      else
        some (Except.error (PuzzleError.MadeUpWord (joinCommaSpace
          (words.filter (fun s => !(d.is_valid (toAsciiLower s)))))))) := by
    unfold Puzzle.valid_words
    rw [validWordsGo_eq d p.all_words words [] hwords]
    simp only [List.nil_append]
  refine ⟨heq1, heq2, ?_⟩
  rw [heq1, heq2]
  by_cases hf : words.filter (fun s => !(d.is_valid (toAsciiLower s))) = []
  · rw [if_pos hf]
    rw [List.filter_eq_nil_iff] at hf
    constructor
    · intro _ s hs
      have := hf s hs
      simpa using this
    · intro _
      rfl
  · rw [if_neg hf]
    constructor
    · intro h
      cases h
    · intro hall
      exfalso
      apply hf
      rw [List.filter_eq_nil_iff]
      intro s hs
      simp [hall s hs]

/-- C5 witness: on the SIT/ACE/PEN puzzle with an empty dictionary, all six
words are reported jointly in one comma-joined error. -/
theorem validate_words_aggregates_witness :
    sitPuzzle.validate_words (Dictionary.new 30) =
      some (Except.error (PuzzleError.MadeUpWord (joinCommaSpace
        [['S', 'I', 'T'], ['A', 'C', 'E'], ['P', 'E', 'N'],
         ['S', 'A', 'P'], ['I', 'C', 'E'], ['T', 'E', 'N']]))) := by
  have h := validate_words_aggregates (Dictionary.new 30) sitPuzzle
    [['S', 'I', 'T'], ['A', 'C', 'E'], ['P', 'E', 'N'],
     ['S', 'A', 'P'], ['I', 'C', 'E'], ['T', 'E', 'N']]
    (by decide) (by decide) (by decide)
  rw [h.1, h.2.1]
  decide

/-! ### Claim C4: parse errors of from_bytes -/

theorem from_str_ok_iff (t : List Char) :
    (∃ c, Cell.from_str t = some (Except.ok c)) ↔ goodFirstToken t = true := by
  unfold Cell.from_str goodFirstToken
  cases htr : trimChars t with
  | nil => simp
  | cons c rest =>
    by_cases h1 : c = '▩'
    · subst h1
      simp
    · by_cases h2 : c = '▢'
      · subst h2
        simp
      · by_cases h3 : c.isAlpha = true
        · simp [h1, h2, h3]
        · simp [h1, h2, h3]

theorem from_str_error_imp (t : List Char) (e : GridError)
    (h : Cell.from_str t = some (Except.error e)) :
    e = GridError.InvalidPuzzleFormat ∧ badFirstToken t = true := by
  cases htr : trimChars t with
  | nil => simp [Cell.from_str, htr] at h
  | cons c rest =>
    by_cases h1 : c = '▩'
    · simp [Cell.from_str, htr, h1] at h
    · by_cases h2 : c = '▢'
      · simp [Cell.from_str, htr, h1, h2] at h
      · by_cases h3 : c.isAlpha = true
        · simp [Cell.from_str, htr, h1, h2, h3] at h
        · simp only [Cell.from_str, htr, if_neg h1, if_neg h2, if_neg h3,
            Option.some.injEq] at h
          have he : e = GridError.InvalidPuzzleFormat := by
            cases h
            rfl
          refine ⟨he, ?_⟩
          simp [badFirstToken, htr, h1, h2, h3]

theorem parseRowCells_ok_iff (ts : List (List Char)) :
    (∃ cells, parseRowCells ts = some (Except.ok cells)) ↔
      ∀ t ∈ ts, goodFirstToken t = true := by
  induction ts with
  | nil =>
    simp [parseRowCells]
  | cons t rest ih =>
    constructor
    · rintro ⟨cells, hc⟩
      cases hs : Cell.from_str t with
      | none => simp [parseRowCells, hs] at hc
      | some r =>
        cases r with
        | error e => simp [parseRowCells, hs] at hc
        | ok c =>
          cases hr : parseRowCells rest with
          | none => simp [parseRowCells, hs, hr] at hc
          | some rr =>
            cases rr with
            | error e => simp [parseRowCells, hs, hr] at hc
            | ok cs =>
              intro u hu
              rcases List.mem_cons.mp hu with h | h
              · rw [h]
                exact (from_str_ok_iff t).mp ⟨c, hs⟩
              · exact (ih.mp ⟨cs, hr⟩) u h
    · intro hall
      obtain ⟨c, hs⟩ := (from_str_ok_iff t).mpr (hall t (List.mem_cons_self t rest))
      obtain ⟨cs, hr⟩ := ih.mpr (fun u hu => hall u (List.mem_cons_of_mem t hu))
      refine ⟨c :: cs, ?_⟩
      simp [parseRowCells, hs, hr]

theorem parseRowCells_error_imp (ts : List (List Char)) (e : GridError)
    (h : parseRowCells ts = some (Except.error e)) :
    e = GridError.InvalidPuzzleFormat ∧ ∃ t ∈ ts, badFirstToken t = true := by
  induction ts with
  | nil =>
    simp [parseRowCells] at h
  | cons t rest ih =>
    cases hs : Cell.from_str t with
    | none => simp [parseRowCells, hs] at h
    | some r =>
      cases r with
      | error e1 =>
        simp only [parseRowCells, hs, Option.some.injEq] at h
        have he : e1 = e := by
          cases h
          rfl
        obtain ⟨hinv, hb⟩ := from_str_error_imp t e1 hs
        exact ⟨by rw [← he, hinv], t, List.mem_cons_self t rest, hb⟩
      | ok c =>
        cases hr : parseRowCells rest with
        | none => simp [parseRowCells, hs, hr] at h
        | some rr =>
          cases rr with
          | error e1 =>
            simp only [parseRowCells, hs, hr, Option.some.injEq] at h
            have he : e1 = e := by
              cases h
              rfl
            obtain ⟨hinv, u, hu, hb⟩ := ih (by rw [hr, he])
            exact ⟨hinv, u, List.mem_cons_of_mem t hu, hb⟩
          | ok cs => simp [parseRowCells, hs, hr] at h

theorem fromBytesRows_ok_iff (rs : List (List Nat)) :
    (∃ rows, fromBytesRows rs = some (Except.ok rows)) ↔
      ∀ row ∈ rs, row ≠ [] →
        ∃ s, utf8Decode row = some s ∧
          ∀ t ∈ splitAsciiWhitespace s, goodFirstToken t = true := by
  induction rs with
  | nil =>
    simp [fromBytesRows]
  | cons row rest ih =>
    by_cases hlen : row.length > 0
    · have hne : row ≠ [] := by
        intro h0
        rw [h0] at hlen
        simp at hlen
      constructor
      · rintro ⟨rows, hc⟩
        cases hd : utf8Decode row with
        | none => simp [fromBytesRows, if_pos hlen, hd] at hc
        | some s =>
          cases hp : parseRowCells (splitAsciiWhitespace s) with
          | none => simp [fromBytesRows, if_pos hlen, hd, hp] at hc
          | some pr =>
            cases pr with
            | error e => simp [fromBytesRows, if_pos hlen, hd, hp] at hc
            | ok cells =>
              cases hrest : fromBytesRows rest with
              | none => simp [fromBytesRows, if_pos hlen, hd, hp, hrest] at hc
              | some rr =>
                cases rr with
                | error e => simp [fromBytesRows, if_pos hlen, hd, hp, hrest] at hc
                | ok more =>
                  intro u hu hune
                  rcases List.mem_cons.mp hu with h | h
                  · subst h
                    exact ⟨s, hd, (parseRowCells_ok_iff _).mp ⟨cells, hp⟩⟩
                  · exact (ih.mp ⟨more, hrest⟩) u h hune
      · intro hall
        obtain ⟨s, hd, hgood⟩ := hall row (List.mem_cons_self row rest) hne
        obtain ⟨cells, hp⟩ := (parseRowCells_ok_iff _).mpr hgood
        obtain ⟨more, hrest⟩ := ih.mpr (fun u hu => hall u (List.mem_cons_of_mem row hu))
        refine ⟨cells :: more, ?_⟩
        simp [fromBytesRows, if_pos hlen, hd, hp, hrest]
    · have hrow : row = [] := by
        cases row with
        | nil => rfl
        | cons b bs => simp at hlen
      constructor
      · rintro ⟨rows, hc⟩
        rw [show fromBytesRows (row :: rest) = fromBytesRows rest by
          simp [fromBytesRows, if_neg hlen]] at hc
        intro u hu hune
        rcases List.mem_cons.mp hu with h | h
        · exact absurd (h.trans hrow) hune
        · exact (ih.mp ⟨rows, hc⟩) u h hune
      · intro hall
        obtain ⟨rows, hc⟩ := ih.mpr (fun u hu => hall u (List.mem_cons_of_mem row hu))
        refine ⟨rows, ?_⟩
        rw [show fromBytesRows (row :: rest) = fromBytesRows rest by
          simp [fromBytesRows, if_neg hlen]]
        exact hc

theorem fromBytesRows_error_imp (rs : List (List Nat)) (e : GridError)
    (h : fromBytesRows rs = some (Except.error e)) :
    (e = GridError.NonUtf8 →
      ∃ row ∈ rs, row ≠ [] ∧ utf8Decode row = none) ∧
    (e = GridError.InvalidPuzzleFormat →
      ∃ row ∈ rs, row ≠ [] ∧ ∃ s, utf8Decode row = some s ∧
        ∃ t ∈ splitAsciiWhitespace s, badFirstToken t = true) := by
  induction rs with
  | nil =>
    simp [fromBytesRows] at h
  | cons row rest ih =>
    by_cases hlen : row.length > 0
    · have hne : row ≠ [] := by
        intro h0
        rw [h0] at hlen
        simp at hlen
      cases hd : utf8Decode row with
      | none =>
        simp only [fromBytesRows, if_pos hlen, hd, Option.some.injEq] at h
        have he : GridError.NonUtf8 = e := by
          cases h
          rfl
        constructor
        · intro _
          exact ⟨row, List.mem_cons_self row rest, hne, hd⟩
        · intro hinv
          rw [← he] at hinv
          cases hinv
      | some s =>
        cases hp : parseRowCells (splitAsciiWhitespace s) with
        | none => simp [fromBytesRows, if_pos hlen, hd, hp] at h
        | some pr =>
          cases pr with
          | error e1 =>
            simp only [fromBytesRows, if_pos hlen, hd, hp, Option.some.injEq] at h
            have he : e1 = e := by
              cases h
              rfl
            obtain ⟨hinv, t, ht, hb⟩ := parseRowCells_error_imp _ e1 hp
            constructor
            · intro hnon
              rw [← he, hinv] at hnon
              cases hnon
            · intro _
              exact ⟨row, List.mem_cons_self row rest, hne, s, hd, t, ht, hb⟩
          | ok cells =>
            cases hrest : fromBytesRows rest with
            | none => simp [fromBytesRows, if_pos hlen, hd, hp, hrest] at h
            | some rr =>
              cases rr with
              | error e1 =>
                simp only [fromBytesRows, if_pos hlen, hd, hp, hrest,
                  Option.some.injEq] at h
                have he : e1 = e := by
                  cases h
                  rfl
                obtain ⟨hn, hi⟩ := ih (by rw [hrest, he])
                constructor
                · intro hnon
                  obtain ⟨u, hu, hx⟩ := hn hnon
                  exact ⟨u, List.mem_cons_of_mem row hu, hx⟩
                · intro hinv
                  obtain ⟨u, hu, hx⟩ := hi hinv
                  exact ⟨u, List.mem_cons_of_mem row hu, hx⟩
              | ok more => simp [fromBytesRows, if_pos hlen, hd, hp, hrest] at h
    · rw [show fromBytesRows (row :: rest) = fromBytesRows rest by
        simp [fromBytesRows, if_neg hlen]] at h
      obtain ⟨hn, hi⟩ := ih h
      constructor
      · intro hnon
        obtain ⟨u, hu, hx⟩ := hn hnon
        exact ⟨u, List.mem_cons_of_mem row hu, hx⟩
      · intro hinv
        obtain ⟨u, hu, hx⟩ := hi hinv
        exact ⟨u, List.mem_cons_of_mem row hu, hx⟩

/-- C4 (amended): `from_bytes` splits the buffer into rows on the newline
byte and skips empty rows; it succeeds exactly when every non-empty row is
valid UTF-8 and the FIRST character of every trimmed white-space-separated
token is the black glyph, the empty glyph, or alphabetic (the rest of a
token is ignored, so a multi-character token such as "ab" parses as a
letter); `NonUtf8` is returned only when some non-empty row fails to decode,
and `InvalidPuzzleFormat` only when some token's first character is none of
the three (the first failing row wins). -/
theorem from_bytes_spec (buf : List Nat) :
    ((∃ g, Grid.from_bytes buf = some (Except.ok g)) ↔
      ∀ row ∈ splitP (fun b => b == 10) buf, row ≠ [] →
        ∃ s, utf8Decode row = some s ∧
          ∀ t ∈ splitAsciiWhitespace s, goodFirstToken t = true) ∧
    (Grid.from_bytes buf = some (Except.error GridError.NonUtf8) →
      ∃ row ∈ splitP (fun b => b == 10) buf, row ≠ [] ∧ utf8Decode row = none) ∧
    (Grid.from_bytes buf = some (Except.error GridError.InvalidPuzzleFormat) →
      ∃ row ∈ splitP (fun b => b == 10) buf, row ≠ [] ∧
        ∃ s, utf8Decode row = some s ∧
          ∃ t ∈ splitAsciiWhitespace s, badFirstToken t = true) := by
  refine ⟨?_, ?_, ?_⟩
  · constructor
    · rintro ⟨g, hg⟩
      unfold Grid.from_bytes at hg
      cases hr : fromBytesRows (splitP (fun b => b == 10) buf) with
      | none =>
        rw [hr] at hg
        cases hg
      | some rr =>
        cases rr with
        | error e =>
          rw [hr] at hg
          cases hg
        | ok rows =>
          exact (fromBytesRows_ok_iff _).mp ⟨rows, hr⟩
    · intro hall
      obtain ⟨rows, hr⟩ := (fromBytesRows_ok_iff _).mpr hall
      refine ⟨⟨rows⟩, ?_⟩
      unfold Grid.from_bytes
      rw [hr]
  · intro hg
    unfold Grid.from_bytes at hg
    cases hr : fromBytesRows (splitP (fun b => b == 10) buf) with
    | none =>
      rw [hr] at hg
      cases hg
    | some rr =>
      cases rr with
      | error e =>
        rw [hr] at hg
        injection hg with hg
        injection hg with hg
        subst hg
        exact (fromBytesRows_error_imp _ _ hr).1 rfl
      | ok rows =>
        rw [hr] at hg
        cases hg
  · intro hg
    unfold Grid.from_bytes at hg
    cases hr : fromBytesRows (splitP (fun b => b == 10) buf) with
    | none =>
      rw [hr] at hg
      cases hg
    | some rr =>
      cases rr with
      | error e =>
        rw [hr] at hg
        injection hg with hg
        injection hg with hg
        subst hg
        exact (fromBytesRows_error_imp _ _ hr).2 rfl
      | ok rows =>
        rw [hr] at hg
        cases hg

/-- C4 witness: the buffer "1\n" (token "1", not a glyph and not alphabetic)
is rejected as an invalid puzzle format by the amended characterisation. -/
theorem from_bytes_spec_witness :
    ∃ row ∈ splitP (fun b => b == 10) [49, 10], row ≠ [] ∧
      ∃ s, utf8Decode row = some s ∧
        ∃ t ∈ splitAsciiWhitespace s, badFirstToken t = true :=
  (from_bytes_spec [49, 10]).2.2 (by decide)

/-- C4 counterexample: the buffer "ab\n" holds the token "ab", which is not a
glyph and not a SINGLE alphabetic character, yet `from_bytes` succeeds (as
`Letter 'a'`) instead of returning `InvalidPuzzleFormat`. -/
theorem from_bytes_counterexample :
    Grid.from_bytes [97, 98, 10] = some (Except.ok ⟨[[Cell.Letter 'a']]⟩) ∧
    splitP (fun b => b == 10) [97, 98, 10] = [[97, 98], []] ∧
    utf8Decode [97, 98] = some ['a', 'b'] ∧
    splitAsciiWhitespace ['a', 'b'] = [['a', 'b']] ∧
    specGoodToken ['a', 'b'] = false := by
  decide

/-! ### Claim C2: the cached-transpose invariant -/

theorem rowLen_of_square {n : Nat} {g : List (List Cell)} (hsq : SquareOf n g) {y : Nat}
    (hy : y < n) : (g.getD y []).length = n := by
  have hyl : y < g.length := by
    rw [hsq.1]
    exact hy
  rw [List.getD_eq_getElem _ _ hyl]
  exact hsq.2 _ (List.getElem_mem hyl)

theorem headD_len_of_square {n : Nat} {g : List (List Cell)} (hsq : SquareOf n g)
    (hn : 1 ≤ n) : (g.headD []).length = n := by
  have hhead : g.headD [] = g.getD 0 [] := by
    cases g <;> rfl
  rw [hhead]
  exact rowLen_of_square hsq hn

theorem square_set_rows {n : Nat} {g : List (List Cell)} (hsq : SquareOf n g)
    {x y : Nat} (hx : x < n) (hy : y < n) (v : Cell) :
    SquareOf n (g.set y ((g.getD y []).set x v)) := by
  constructor
  · rw [List.length_set]
    exact hsq.1
  · intro row hrow
    rcases List.mem_or_eq_of_mem_set hrow with h | h
    · exact hsq.2 row h
    · rw [h, List.length_set]
      exact rowLen_of_square hsq hy

theorem transposeRows_square {n : Nat} {g : List (List Cell)} (hsq : SquareOf n g)
    (hn : 1 ≤ n) : SquareOf n (Grid.transposeRows g) := by
  constructor
  · unfold Grid.transposeRows
    rw [List.length_map, List.length_range]
    exact headD_len_of_square hsq hn
  · intro row hrow
    unfold Grid.transposeRows at hrow
    rw [List.mem_map] at hrow
    obtain ⟨i, _, hr⟩ := hrow
    rw [← hr, List.length_map]
    exact hsq.1

theorem getD_transposeRows {n : Nat} {g : List (List Cell)} (hsq : SquareOf n g)
    (hn : 1 ≤ n) {i j : Nat} (hi : i < n) (hj : j < n) :
    ((Grid.transposeRows g).getD i []).getD j Cell.Empty =
      (g.getD j []).getD i Cell.Empty := by
  unfold Grid.transposeRows
  rw [getD_map_range _ _ (by rw [headD_len_of_square hsq hn]; exact hi)]
  rw [getD_map_of_lt _ _ _ [] (by rw [hsq.1]; exact hj)]

theorem square_ext {n : Nat} {a b : List (List Cell)} (ha : SquareOf n a) (hb : SquareOf n b)
    (h : ∀ i j, i < n → j < n →
      (a.getD i []).getD j Cell.Empty = (b.getD i []).getD j Cell.Empty) : a = b := by
  apply List.ext_getElem
  · rw [ha.1, hb.1]
  · intro i h1 h2
    have hin : i < n := by
      rw [← ha.1]
      exact h1
    apply List.ext_getElem
    · rw [ha.2 _ (List.getElem_mem h1), hb.2 _ (List.getElem_mem h2)]
    · intro j hj1 hj2
      have hjn : j < n := by
        rw [← ha.2 _ (List.getElem_mem h1)]
        exact hj1
      have hpt := h i j hin hjn
      rw [List.getD_eq_getElem _ _ h1, List.getD_eq_getElem _ _ h2] at hpt
      rw [List.getD_eq_getElem _ _ hj1, List.getD_eq_getElem _ _ hj2] at hpt
      exact hpt

theorem transposeRows_set {n : Nat} {g : List (List Cell)} (hsq : SquareOf n g)
    (hn : 1 ≤ n) {x y : Nat} (hx : x < n) (hy : y < n) (v : Cell) :
    Grid.transposeRows (g.set y ((g.getD y []).set x v)) =
      (Grid.transposeRows g).set x
        (((Grid.transposeRows g).getD x []).set y v) := by
  have hsq1 : SquareOf n (g.set y ((g.getD y []).set x v)) := square_set_rows hsq hx hy v
  have hsqT : SquareOf n (Grid.transposeRows g) := transposeRows_square hsq hn
  have hrowT : ((Grid.transposeRows g).getD x []).length = n := rowLen_of_square hsqT hx
  have hrow : (g.getD y []).length = n := rowLen_of_square hsq hy
  have hsqR : SquareOf n ((Grid.transposeRows g).set x
      (((Grid.transposeRows g).getD x []).set y v)) := square_set_rows hsqT hy hx v
  apply square_ext (transposeRows_square hsq1 hn) hsqR
  intro i j hi hj
  rw [getD_transposeRows hsq1 hn hi hj]
  by_cases hjy : j = y
  · subst hjy
    rw [getD_set_eq _ _ _ _ (by rw [hsq.1]; exact hj)]
    by_cases hix : i = x
    · subst hix
      rw [getD_set_eq _ _ _ _ (by rw [hrow]; exact hi)]
      rw [getD_set_eq _ _ _ _ (by rw [hsqT.1]; exact hi)]
      rw [getD_set_eq _ _ _ _ (by rw [hrowT]; exact hj)]
    · rw [getD_set_ne (g.getD j []) v Cell.Empty (Ne.symm hix)]
      rw [getD_set_ne (Grid.transposeRows g) _ [] (Ne.symm hix)]
      rw [getD_transposeRows hsq hn hi hj]
  · rw [getD_set_ne g _ [] (Ne.symm hjy)]
    by_cases hix : i = x
    · subst hix
      rw [getD_set_eq _ _ _ _ (by rw [hsqT.1]; exact hi)]
      rw [getD_set_ne ((Grid.transposeRows g).getD i []) v Cell.Empty (Ne.symm hjy)]
      rw [getD_transposeRows hsq hn hi hj]
    · rw [getD_set_ne (Grid.transposeRows g) _ [] (Ne.symm hix)]
      rw [getD_transposeRows hsq hn hi hj]

theorem transpose_eq_some_of_square {n : Nat} (g : Grid) (hsq : SquareOf n g.rows)
    (hn : 1 ≤ n) : Grid.transpose g = some ⟨Grid.transposeRows g.rows⟩ := by
  have hne : g.rows ≠ [] := by
    intro h0
    rw [h0] at hsq
    have := hsq.1
    simp at this
    omega
  have hall : g.rows.all (fun row => (g.rows.headD []).length ≤ row.length) = true := by
    rw [List.all_eq_true]
    intro row hrow
    rw [headD_len_of_square hsq hn, hsq.2 row hrow]
    simp
  unfold Grid.transpose
  rw [if_neg hne, if_pos hall]

theorem transpose_eq_some_imp {g : Grid} {t : Grid} (h : Grid.transpose g = some t) :
    t.rows = Grid.transposeRows g.rows ∧ g.rows ≠ [] := by
  unfold Grid.transpose at h
  by_cases hne : g.rows = []
  · rw [if_pos hne] at h
    cases h
  · rw [if_neg hne] at h
    by_cases hall : g.rows.all (fun row => (g.rows.headD []).length ≤ row.length) = true
    · rw [if_pos hall] at h
      injection h with h
      rw [← h]
      exact ⟨rfl, hne⟩
    · rw [if_neg hall] at h
      cases h

/-- The combined invariant claim C2 speaks about: the grid is square of the
puzzle's size and the cached transpose equals the grid's transpose. -/
theorem puzzle_set_good {p : Puzzle} (hsq : SquareOf p.size p.cells.rows)
    (hinv : Grid.transpose p.cells = some p.transpose) {x y : Nat}
    (hx : x < p.size) (hy : y < p.size) (v : Cell) :
    (p.set x y v).size = p.size ∧
    SquareOf (p.set x y v).size (p.set x y v).cells.rows ∧
    Grid.transpose (p.set x y v).cells = some (p.set x y v).transpose := by
  obtain ⟨htrows, hne⟩ := transpose_eq_some_imp hinv
  have hn : 1 ≤ p.size := by
    rcases Nat.eq_zero_or_pos p.size with h0 | h1
    · exfalso
      apply hne
      have := hsq.1
      rw [h0] at this
      cases hrows : p.cells.rows with
      | nil => rfl
      | cons r rs => rw [hrows] at this; simp at this
    · exact h1
  have hsq1 : SquareOf p.size (p.set x y v).cells.rows := by
    show SquareOf p.size (p.cells.rows.set y ((p.cells.rows.getD y []).set x v))
    exact square_set_rows hsq hx hy v
  refine ⟨rfl, hsq1, ?_⟩
  have ht1 : Grid.transpose (p.set x y v).cells =
      some ⟨Grid.transposeRows (p.set x y v).cells.rows⟩ :=
    transpose_eq_some_of_square _ hsq1 hn
  rw [ht1]
  show some (⟨Grid.transposeRows (p.cells.rows.set y ((p.cells.rows.getD y []).set x v))⟩ : Grid) =
    some ⟨p.transpose.rows.set x ((p.transpose.rows.getD x []).set y v)⟩
  rw [transposeRows_set hsq hn hx hy v, htrows]

theorem puzzle_set_goodP {n : Nat} {p : Puzzle} (h : GoodP n p) {x y : Nat}
    (hx : x < n) (hy : y < n) (v : Cell) : GoodP n (p.set x y v) := by
  obtain ⟨hsize, hsq, hinv⟩ := h
  subst hsize
  obtain ⟨_, hsq1, hinv1⟩ := puzzle_set_good hsq hinv hx hy v
  exact ⟨rfl, hsq1, hinv1⟩

theorem puzzle_set_symmetric_goodP {n : Nat} {p : Puzzle} (h : GoodP n p) {x y : Nat}
    (hx : x < n) (hy : y < n) (v : Cell) : GoodP n (p.set_symmetric x y v) := by
  have hn : 1 ≤ n := by omega
  have hsize : p.size = n := h.1
  have hb1 : p.size - (y + 1) < n := by omega
  have hb2 : p.size - (x + 1) < n := by omega
  unfold Puzzle.set_symmetric
  exact puzzle_set_goodP
    (puzzle_set_goodP (puzzle_set_goodP (puzzle_set_goodP h hx hy v) hb1 hx v) hb2 hb1 v)
    hy hb2 v

theorem foldl_preserve {α β : Type} (P : β → Prop) (f : β → α → β) (l : List α) :
    ∀ init : β, P init → (∀ b a, a ∈ l → P b → P (f b a)) → P (l.foldl f init) := by
  induction l with
  | nil =>
    intro init h0 _
    exact h0
  | cons a rest ih =>
    intro init h0 hstep
    rw [List.foldl_cons]
    exact ih (f init a) (hstep init a (List.mem_cons_self a rest) h0)
      (fun b u hu hb => hstep b u (List.mem_cons_of_mem a hu) hb)

theorem randomLetterStep_goodP {n : Nat} (rng : Nat → Fin 26) {st : Puzzle × Nat}
    (h : GoodP n st.1) {row col : Nat} (hrow : row < n) (hcol : col < n) :
    GoodP n ((randomLetterStep rng st row col).1) := by
  unfold randomLetterStep
  cases hc : st.1.cells.get col row with
  | Black => exact h
  | Empty => exact puzzle_set_goodP h hcol hrow _
  | Letter l => exact h

theorem puzzle_random_letters_goodP {n : Nat} {p : Puzzle} (h : GoodP n p)
    (rng : Nat → Fin 26) : GoodP n (p.random_letters rng) := by
  unfold Puzzle.random_letters
  have hsize : p.size = n := h.1
  have houter : GoodP n (((List.range p.size).foldl (fun st row =>
      (List.range p.size).foldl (fun st col => randomLetterStep rng st row col) st)
      (p, 0)).1) := by
    have hP := foldl_preserve (fun st : Puzzle × Nat => GoodP n st.1)
      (fun st row => (List.range p.size).foldl
        (fun st col => randomLetterStep rng st row col) st)
      (List.range p.size) (p, 0) h ?_
    · exact hP
    · intro st row hrowmem hst
      have hrow : row < n := by
        rw [List.mem_range] at hrowmem
        omega
      exact foldl_preserve (fun st : Puzzle × Nat => GoodP n st.1)
        (fun st col => randomLetterStep rng st row col) (List.range p.size) st hst
        (fun b col hcolmem hb => by
          have hcol : col < n := by
            rw [List.mem_range] at hcolmem
            omega
          exact randomLetterStep_goodP rng hb hrow hcol)
  exact houter

theorem rbCols_goodP {n : Nat} (coin : Nat → Bool) (th row : Nat) (hrow : row < n) :
    ∀ (cols : List Nat) (st : Puzzle × Nat × Nat), (∀ c ∈ cols, c < n) →
      GoodP n st.1 → GoodP n ((rbCols coin th row cols st).1.1) := by
  intro cols
  induction cols with
  | nil =>
    intro st _ h
    exact h
  | cons col rest ih =>
    intro st hb h
    obtain ⟨p, bs, k⟩ := st
    have hcol : col < n := hb col (List.mem_cons_self col rest)
    have hbr : ∀ c ∈ rest, c < n := fun c hc => hb c (List.mem_cons_of_mem col hc)
    simp only [rbCols]
    by_cases hcond :
        ((p.cells.get col row != Cell.Black) && p.valid_black_placement col row) = true
    · rw [if_pos hcond]
      by_cases hcoin : coin k = true
      · rw [if_pos hcoin]
        exact puzzle_set_symmetric_goodP h hcol hrow Cell.Black
      · rw [if_neg hcoin]
        exact ih (p, bs, k + 1) hbr h
    · rw [if_neg hcond]
      exact ih (p, bs, k) hbr h

theorem rbRows_goodP {n : Nat} (coin : Nat → Bool) (th quadrant : Nat) (hq : quadrant ≤ n) :
    ∀ (rows : List Nat) (st : Puzzle × Nat × Nat), (∀ r ∈ rows, r < n) →
      GoodP n st.1 → GoodP n ((rbRows coin th quadrant rows st).1.1) := by
  intro rows
  induction rows with
  | nil =>
    intro st _ h
    exact h
  | cons row rest ih =>
    intro st hb h
    have hrow : row < n := hb row (List.mem_cons_self row rest)
    have hcols : ∀ c ∈ List.range quadrant, c < n := by
      intro c hc
      rw [List.mem_range] at hc
      omega
    have hst1 : GoodP n ((rbCols coin th row (List.range quadrant) st).1.1) :=
      rbCols_goodP coin th row hrow (List.range quadrant) st hcols h
    simp only [rbRows]
    cases hcall : rbCols coin th row (List.range quadrant) st with
    | mk st1 flag =>
      rw [hcall] at hst1
      cases flag with
      | true => exact hst1
      | false => exact ih st1 (fun r hr => hb r (List.mem_cons_of_mem row hr)) hst1

theorem rbLoop_goodP {n : Nat} (coin : Nat → Bool) (th quadrant : Nat) (hq : quadrant ≤ n) :
    ∀ (fuel : Nat) (st : Puzzle × Nat × Nat), GoodP n st.1 →
      GoodP n (rbLoop coin th quadrant fuel st) := by
  intro fuel
  induction fuel with
  | zero =>
    intro st h
    exact h
  | succ fuel ih =>
    intro st h
    have hrows : ∀ r ∈ List.range quadrant, r < n := by
      intro r hr
      rw [List.mem_range] at hr
      omega
    have hst1 : GoodP n ((rbRows coin th quadrant (List.range quadrant) st).1.1) :=
      rbRows_goodP coin th quadrant hq (List.range quadrant) st hrows h
    simp only [rbLoop]
    cases hcall : rbRows coin th quadrant (List.range quadrant) st with
    | mk st1 flag =>
      rw [hcall] at hst1
      cases flag with
      | true => exact hst1
      | false => exact ih st1 hst1

theorem puzzle_random_black_goodP {n : Nat} {p : Puzzle} (h : GoodP n p)
    (coin : Nat → Bool) (fuel : Nat) : GoodP n (p.random_black coin fuel) := by
  unfold Puzzle.random_black
  by_cases hs : p.size < 5
  · rw [if_pos hs]
    exact h
  · rw [if_neg hs]
    have hsize : p.size = n := h.1
    have hq : max 2 (p.size / 2) ≤ n := by
      apply Nat.max_le.mpr
      constructor <;> omega
    exact rbLoop_goodP coin _ _ hq fuel (p, 0, 0) h

/-- C2: on a puzzle whose grid is square of its size and whose cached
transpose equals the grid's transpose, every mutating operation — `set` and
`set_symmetric` at in-range coordinates, `random_black`, and
`random_letters` — preserves the invariant that the cached transpose equals
the transpose of the primary grid. -/
theorem mutators_preserve_transpose_invariant (p : Puzzle)
    (hsq : SquareOf p.size p.cells.rows)
    (hinv : Grid.transpose p.cells = some p.transpose) :
    (∀ x y v, x < p.size → y < p.size →
      Grid.transpose (p.set x y v).cells = some (p.set x y v).transpose) ∧
    (∀ x y v, x < p.size → y < p.size →
      Grid.transpose (p.set_symmetric x y v).cells =
        some (p.set_symmetric x y v).transpose) ∧
    (∀ (coin : Nat → Bool) (fuel : Nat),
      Grid.transpose (p.random_black coin fuel).cells =
        some (p.random_black coin fuel).transpose) ∧
    (∀ rng : Nat → Fin 26,
      Grid.transpose (p.random_letters rng).cells =
        some (p.random_letters rng).transpose) := by
  have hgood : GoodP p.size p := ⟨rfl, hsq, hinv⟩
  refine ⟨?_, ?_, ?_, ?_⟩
  · intro x y v hx hy
    exact (puzzle_set_goodP hgood hx hy v).2.2
  · intro x y v hx hy
    exact (puzzle_set_symmetric_goodP hgood hx hy v).2.2
  · intro coin fuel
    exact (puzzle_random_black_goodP hgood coin fuel).2.2
  · intro rng
    exact (puzzle_random_letters_goodP hgood rng).2.2

/-- C2 witness: setting a cell of the 3-by-3 test puzzle keeps the cached
transpose equal to the grid's transpose. -/
theorem mutators_preserve_transpose_invariant_witness :
    Grid.transpose (sitPuzzle.set 0 1 Cell.Black).cells =
      some (sitPuzzle.set 0 1 Cell.Black).transpose :=
  (mutators_preserve_transpose_invariant sitPuzzle (by decide) (by decide)).1
    0 1 Cell.Black (by decide) (by decide)

/-! ### Claim C7: the display round trip -/

theorem utf8Decode_encodeChar (c : Char) (bs : List Nat) :
    utf8Decode (utf8EncodeChar c ++ bs) = (utf8Decode bs).map (fun cs => c :: cs) := by
  have hval : c.toNat < 0xd800 ∨ (0xdfff < c.toNat ∧ c.toNat < 0x110000) := c.valid
  have hofnat : Char.ofNat c.toNat = c := Char.ofNat_toNat c
  have hdd3 : c.toNat / 0x40 / 0x40 = c.toNat / 0x1000 := by
    rw [Nat.div_div_eq_div_mul]
  have hdd4 : c.toNat / 0x1000 / 0x40 = c.toNat / 0x40000 := by
    rw [Nat.div_div_eq_div_mul]
  unfold utf8Decode
  by_cases h1 : c.toNat < 0x80
  · have henc : utf8EncodeChar c = [c.toNat] := by
      unfold utf8EncodeChar
      rw [if_pos h1]
    rw [henc]
    show utf8Go 0 0 0 (c.toNat :: bs) = _
    rw [utf8Go, if_pos h1, hofnat]
  · by_cases h2 : c.toNat < 0x800
    · have henc : utf8EncodeChar c = [0xC0 + c.toNat / 0x40, 0x80 + c.toNat % 0x40] := by
        unfold utf8EncodeChar
        rw [if_neg h1, if_pos h2]
      rw [henc]
      show utf8Go 0 0 0 ((0xC0 + c.toNat / 0x40) :: (0x80 + c.toNat % 0x40) :: bs) = _
      rw [utf8Go, if_neg (by omega), if_neg (by omega), if_pos (by omega)]
      rw [utf8Go, if_pos (by omega), if_pos rfl]
      have harg : (0xC0 + c.toNat / 0x40 - 0xC0) * 0x40 + (0x80 + c.toNat % 0x40 - 0x80) =
          c.toNat := by omega
      rw [harg, if_neg (by omega), if_neg (by omega), if_neg (by omega), hofnat]
    · by_cases h3 : c.toNat < 0x10000
      · have henc : utf8EncodeChar c =
            [0xE0 + c.toNat / 0x1000, 0x80 + c.toNat / 0x40 % 0x40,
             0x80 + c.toNat % 0x40] := by
          unfold utf8EncodeChar
          rw [if_neg h1, if_neg h2, if_pos h3]
        rw [henc]
        show utf8Go 0 0 0 ((0xE0 + c.toNat / 0x1000) :: (0x80 + c.toNat / 0x40 % 0x40) ::
          (0x80 + c.toNat % 0x40) :: bs) = _
        rw [utf8Go, if_neg (by omega), if_neg (by omega), if_neg (by omega),
          if_pos (by omega)]
        rw [utf8Go, if_pos (by omega), if_neg (by omega)]
        rw [utf8Go, if_pos (by omega), if_pos rfl]
        have harg : ((0xE0 + c.toNat / 0x1000 - 0xE0) * 0x40 +
            (0x80 + c.toNat / 0x40 % 0x40 - 0x80)) * 0x40 +
            (0x80 + c.toNat % 0x40 - 0x80) = c.toNat := by omega
        rw [harg, if_neg (by omega), if_neg (by omega), if_neg (by omega), hofnat]
      · have henc : utf8EncodeChar c =
            [0xF0 + c.toNat / 0x40000, 0x80 + c.toNat / 0x1000 % 0x40,
             0x80 + c.toNat / 0x40 % 0x40, 0x80 + c.toNat % 0x40] := by
          unfold utf8EncodeChar
          rw [if_neg h1, if_neg h2, if_neg h3]
        rw [henc]
        have hmax : c.toNat < 0x110000 := by omega
        show utf8Go 0 0 0 ((0xF0 + c.toNat / 0x40000) :: (0x80 + c.toNat / 0x1000 % 0x40) ::
          (0x80 + c.toNat / 0x40 % 0x40) :: (0x80 + c.toNat % 0x40) :: bs) = _
        rw [utf8Go, if_neg (by omega), if_neg (by omega), if_neg (by omega),
          if_neg (by omega), if_pos (by omega)]
        rw [utf8Go, if_pos (by omega), if_neg (by omega)]
        rw [utf8Go, if_pos (by omega), if_neg (by omega)]
        rw [utf8Go, if_pos (by omega), if_pos rfl]
        have harg : (((0xF0 + c.toNat / 0x40000 - 0xF0) * 0x40 +
            (0x80 + c.toNat / 0x1000 % 0x40 - 0x80)) * 0x40 +
            (0x80 + c.toNat / 0x40 % 0x40 - 0x80)) * 0x40 +
            (0x80 + c.toNat % 0x40 - 0x80) = c.toNat := by omega
        rw [harg, if_neg (by omega), if_neg (by omega), if_neg (by omega), hofnat]

theorem utf8Encode_cons (c : Char) (s : List Char) :
    utf8Encode (c :: s) = utf8EncodeChar c ++ utf8Encode s := by
  simp [utf8Encode]

theorem utf8Decode_encode (s : List Char) : utf8Decode (utf8Encode s) = some s := by
  induction s with
  | nil => rfl
  | cons c rest ih =>
    rw [utf8Encode_cons, utf8Decode_encodeChar, ih]
    rfl

theorem utf8Encode_append (a b : List Char) :
    utf8Encode (a ++ b) = utf8Encode a ++ utf8Encode b := by
  simp [utf8Encode]

theorem encodeChar_ne_nil (c : Char) : utf8EncodeChar c ≠ [] := by
  unfold utf8EncodeChar
  by_cases h1 : c.toNat < 0x80
  · rw [if_pos h1]
    simp
  · by_cases h2 : c.toNat < 0x800
    · rw [if_neg h1, if_pos h2]
      simp
    · by_cases h3 : c.toNat < 0x10000
      · rw [if_neg h1, if_neg h2, if_pos h3]
        simp
      · rw [if_neg h1, if_neg h2, if_neg h3]
        simp

theorem ten_not_mem_encodeChar (c : Char) (hc : c ≠ '\n') {b : Nat}
    (hb : b ∈ utf8EncodeChar c) : b ≠ 10 := by
  unfold utf8EncodeChar at hb
  by_cases h1 : c.toNat < 0x80
  · rw [if_pos h1] at hb
    rw [List.mem_singleton] at hb
    subst hb
    intro h10
    apply hc
    have hnat := Char.ofNat_toNat c
    rw [h10] at hnat
    rw [← hnat]
  · by_cases h2 : c.toNat < 0x800
    · rw [if_neg h1, if_pos h2] at hb
      intro h10
      subst h10
      simp only [List.mem_cons, List.not_mem_nil, or_false] at hb
      rcases hb with h | h <;> omega
    · by_cases h3 : c.toNat < 0x10000
      · rw [if_neg h1, if_neg h2, if_pos h3] at hb
        intro h10
        subst h10
        simp only [List.mem_cons, List.not_mem_nil, or_false] at hb
        rcases hb with h | h | h <;> omega
      · rw [if_neg h1, if_neg h2, if_neg h3] at hb
        intro h10
        subst h10
        simp only [List.mem_cons, List.not_mem_nil, or_false] at hb
        rcases hb with h | h | h | h <;> omega

theorem splitP_of_no_sep {α : Type} (p : α → Bool) (xs : List α)
    (h : ∀ a ∈ xs, p a = false) : splitP p xs = [xs] := by
  induction xs with
  | nil => rfl
  | cons a rest ih =>
    have ha : p a = false := h a (List.mem_cons_self a rest)
    have hrest := ih (fun b hb => h b (List.mem_cons_of_mem a hb))
    rw [splitP, if_neg (by simp [ha]), hrest]

theorem splitP_append_sep {α : Type} (p : α → Bool) (xs ys : List α) (a : α)
    (hxs : ∀ b ∈ xs, p b = false) (ha : p a = true) :
    splitP p (xs ++ a :: ys) = xs :: splitP p ys := by
  induction xs with
  | nil =>
    rw [List.nil_append, splitP, if_pos ha]
  | cons x rest ih =>
    have hx : p x = false := hxs x (List.mem_cons_self x rest)
    have hrest := ih (fun b hb => hxs b (List.mem_cons_of_mem x hb))
    rw [List.cons_append, splitP, if_neg (by simp [hx]), hrest]

theorem splitP_flatten_chunks {α : Type} (p : α → Bool) (sep : α) (hsep : p sep = true)
    (chunks : List (List α)) (h : ∀ ch ∈ chunks, ∀ b ∈ ch, p b = false) :
    splitP p ((chunks.map (fun ch => ch ++ [sep])).flatten) = chunks ++ [[]] := by
  induction chunks with
  | nil => rfl
  | cons ch rest ih =>
    have hch : ∀ b ∈ ch, p b = false := h ch (List.mem_cons_self ch rest)
    have hrest := ih (fun u hu => h u (List.mem_cons_of_mem ch hu))
    rw [List.map_cons, List.flatten_cons, List.append_assoc, List.singleton_append]
    rw [splitP_append_sep p ch _ sep hch hsep, hrest]
    rfl

theorem isAlpha_not_asciiws (l : Char) (h : l.isAlpha = true) :
    isAsciiWhitespace l = false := by
  cases hw : isAsciiWhitespace l with
  | false => rfl
  | true =>
    exfalso
    have hmem : l ∈ [' ', '\t', '\n', '\x0c', '\r'] := List.elem_iff.mp hw
    fin_cases hmem <;> exact absurd h (by decide)

theorem isAlpha_not_uws (l : Char) (h : l.isAlpha = true) :
    isUnicodeWhitespace l = false := by
  cases hw : isUnicodeWhitespace l with
  | false => rfl
  | true =>
    exfalso
    unfold isUnicodeWhitespace at hw
    have hmem := List.elem_iff.mp hw
    fin_cases hmem <;> exact absurd h (by decide)

theorem trimChars_singleton (l : Char) (h : isUnicodeWhitespace l = false) :
    trimChars [l] = [l] := by
  simp [trimChars, List.dropWhile_cons, h]

theorem from_str_glyph (c : Cell) (h : allowedCell c = true) :
    Cell.from_str [glyphChar c] = some (Except.ok c) := by
  cases c with
  | Black => decide
  | Empty => decide
  | Letter l =>
    have hl : l.isAlpha = true := h
    have huws : isUnicodeWhitespace l = false := isAlpha_not_uws l hl
    have h1 : l ≠ '▩' := by
      intro he
      subst he
      exact absurd hl (by decide)
    have h2 : l ≠ '▢' := by
      intro he
      subst he
      exact absurd hl (by decide)
    show Cell.from_str [l] = some (Except.ok (Cell.Letter l))
    have hrepr : Cell.from_str [l] =
        (if l = '▩' then some (Except.ok Cell.Black)
         else if l = '▢' then some (Except.ok Cell.Empty)
         else if l.isAlpha then some (Except.ok (Cell.Letter l))
         else some (Except.error GridError.InvalidPuzzleFormat)) := by
      unfold Cell.from_str
      rw [trimChars_singleton l huws]
    rw [hrepr, if_neg h1, if_neg h2, if_pos hl]

theorem glyphChar_not_ws (c : Cell) (h : allowedCell c = true) :
    isAsciiWhitespace (glyphChar c) = false := by
  cases c with
  | Black => decide
  | Empty => decide
  | Letter l => exact isAlpha_not_asciiws l h

theorem display_eq_glyph_space (c : Cell) :
    Cell.display c = [glyphChar c] ++ [' '] := by
  cases c <;> rfl

theorem splitAW_rowChars (row : List Cell) (h : ∀ c ∈ row, allowedCell c = true) :
    splitAsciiWhitespace ((row.map Cell.display).flatten) =
      row.map (fun c => [glyphChar c]) := by
  have hfun : row.map Cell.display =
      (row.map (fun c => [glyphChar c])).map (fun ch => ch ++ [' ']) := by
    rw [List.map_map]
    apply List.map_congr_left
    intro c _
    exact display_eq_glyph_space c
  unfold splitAsciiWhitespace
  rw [hfun]
  rw [splitP_flatten_chunks isAsciiWhitespace ' ' (by decide) (row.map fun c => [glyphChar c])
    (by
      intro ch hch b hb
      rw [List.mem_map] at hch
      obtain ⟨c, hc, hceq⟩ := hch
      rw [← hceq] at hb
      rw [List.mem_singleton] at hb
      subst hb
      exact glyphChar_not_ws c (h c hc))]
  rw [List.filter_append]
  have h1 : (row.map fun c => [glyphChar c]).filter (fun t => t ≠ []) =
      row.map fun c => [glyphChar c] := by
    rw [List.filter_eq_self]
    intro a ha
    rw [List.mem_map] at ha
    obtain ⟨c, _, hceq⟩ := ha
    rw [← hceq]
    simp
  rw [h1]
  simp

theorem parseRowCells_glyphs (row : List Cell) (h : ∀ c ∈ row, allowedCell c = true) :
    parseRowCells (row.map (fun c => [glyphChar c])) = some (Except.ok row) := by
  induction row with
  | nil => rfl
  | cons c rest ih =>
    have hc := from_str_glyph c (h c (List.mem_cons_self c rest))
    have hrest := ih (fun u hu => h u (List.mem_cons_of_mem c hu))
    rw [List.map_cons]
    simp [parseRowCells, hc, hrest]

theorem utf8Encode_ne_nil (s : List Char) (h : s ≠ []) : utf8Encode s ≠ [] := by
  cases s with
  | nil => exact absurd rfl h
  | cons c rest =>
    rw [utf8Encode_cons]
    intro h0
    have hlen := congrArg List.length h0
    rw [List.length_append] at hlen
    simp only [List.length_nil] at hlen
    have hc := List.length_pos.mpr (encodeChar_ne_nil c)
    omega

theorem mem_utf8Encode {b : Nat} {s : List Char} (hb : b ∈ utf8Encode s) :
    ∃ c ∈ s, b ∈ utf8EncodeChar c := by
  unfold utf8Encode at hb
  rw [List.mem_flatten] at hb
  obtain ⟨piece, hpiece, hbp⟩ := hb
  rw [List.mem_map] at hpiece
  obtain ⟨c, hc, hceq⟩ := hpiece
  exact ⟨c, hc, hceq ▸ hbp⟩

theorem rowChars_no_newline (row : List Cell) (h : ∀ c ∈ row, allowedCell c = true) :
    ∀ ch ∈ (row.map Cell.display).flatten, ch ≠ '\n' := by
  intro ch hch
  rw [List.mem_flatten] at hch
  obtain ⟨piece, hpiece, hchp⟩ := hch
  rw [List.mem_map] at hpiece
  obtain ⟨c, hc, hceq⟩ := hpiece
  rw [← hceq, display_eq_glyph_space c] at hchp
  simp only [List.cons_append, List.nil_append, List.mem_cons, List.not_mem_nil,
    or_false] at hchp
  rcases hchp with h1 | h1
  · subst h1
    cases c with
    | Black => decide
    | Empty => decide
    | Letter l =>
      have hl : l.isAlpha = true := h (Cell.Letter l) hc
      show l ≠ '\n'
      intro he
      subst he
      exact absurd hl (by decide)
  · subst h1
    decide

theorem utf8Encode_flatten (L : List (List Char)) :
    utf8Encode L.flatten = (L.map utf8Encode).flatten := by
  induction L with
  | nil => rfl
  | cons a rest ih =>
    rw [List.flatten_cons, utf8Encode_append, List.map_cons, List.flatten_cons, ih]

theorem fromBytesRows_encoded (rows : List (List Cell))
    (hne : ∀ row ∈ rows, row ≠ [])
    (hall : ∀ row ∈ rows, ∀ c ∈ row, allowedCell c = true) :
    fromBytesRows
        ((rows.map (fun row => utf8Encode ((row.map Cell.display).flatten))) ++ [[]]) =
      some (Except.ok rows) := by
  induction rows with
  | nil => rfl
  | cons row rest ih =>
    have hrne : row ≠ [] := hne row (List.mem_cons_self row rest)
    have hrall : ∀ c ∈ row, allowedCell c = true := hall row (List.mem_cons_self row rest)
    have hBne : utf8Encode ((row.map Cell.display).flatten) ≠ [] := by
      apply utf8Encode_ne_nil
      cases row with
      | nil => exact absurd rfl hrne
      | cons c rest2 =>
        rw [List.map_cons, List.flatten_cons, display_eq_glyph_space c]
        simp
    have hBlen : (utf8Encode ((row.map Cell.display).flatten)).length > 0 :=
      List.length_pos.mpr hBne
    have hd : utf8Decode (utf8Encode ((row.map Cell.display).flatten)) =
        some ((row.map Cell.display).flatten) := utf8Decode_encode _
    have htok := splitAW_rowChars row hrall
    have hp := parseRowCells_glyphs row hrall
    have hrest := ih (fun u hu => hne u (List.mem_cons_of_mem row hu))
      (fun u hu => hall u (List.mem_cons_of_mem row hu))
    rw [List.map_cons, List.cons_append]
    simp only [fromBytesRows, if_pos hBlen, hd, htok, hp, hrest]

/-- C7 (amended): serialising a grid whose rows are all non-empty and whose
cells are only `Black`, `Empty`, or alphabetic `Letter`s, and re-parsing the
bytes, yields the original grid.  (A grid with an empty row does NOT round
trip: the empty row prints as a blank line, which parsing skips.) -/
theorem display_roundtrip (g : Grid) (hg : g.rows ≠ [])
    (hrows : ∀ row ∈ g.rows, row ≠ [])
    (hcells : ∀ row ∈ g.rows, ∀ c ∈ row, allowedCell c = true) :
    Grid.from_bytes (utf8Encode g.display) = some (Except.ok g) := by
  have hdisp : utf8Encode g.display =
      ((g.rows.map (fun row => utf8Encode ((row.map Cell.display).flatten))).map
        (fun ch => ch ++ [10])).flatten := by
    show utf8Encode
        ((g.rows.map (fun row => (row.map Cell.display).flatten ++ ['\n'])).flatten) = _
    rw [utf8Encode_flatten, List.map_map, List.map_map]
    congr 1
    apply List.map_congr_left
    intro row _
    show utf8Encode ((row.map Cell.display).flatten ++ ['\n']) = _
    rw [utf8Encode_append]
    rfl
  have hsplit : splitP (fun b => b == 10) (utf8Encode g.display) =
      (g.rows.map (fun row => utf8Encode ((row.map Cell.display).flatten))) ++ [[]] := by
    rw [hdisp]
    apply splitP_flatten_chunks (fun b => b == 10) 10 rfl
    intro ch hch b hb
    rw [List.mem_map] at hch
    obtain ⟨row, hrow, hcheq⟩ := hch
    rw [← hcheq] at hb
    obtain ⟨c, hcmem, hbc⟩ := mem_utf8Encode hb
    have hcne : c ≠ '\n' := rowChars_no_newline row (hcells row hrow) c hcmem
    have : b ≠ 10 := ten_not_mem_encodeChar c hcne hbc
    simp [this]
  unfold Grid.from_bytes
  rw [hsplit, fromBytesRows_encoded g.rows hrows hcells]

/-- C7 witness: the SIT/ACE/PEN grid round trips through the text format. -/
theorem display_roundtrip_witness :
    Grid.from_bytes (utf8Encode sitGrid.display) = some (Except.ok sitGrid) :=
  display_roundtrip sitGrid (by decide) (by decide) (by decide)

/-- C7 counterexample: a non-empty grid with an empty first row and only
allowed cells serialises to a blank line followed by "a ", and re-parsing
drops the blank line, yielding a DIFFERENT grid. -/
theorem display_roundtrip_counterexample :
    Grid.from_bytes (utf8Encode emptyRowGrid.display) =
      some (Except.ok ⟨[[Cell.Letter 'a']]⟩) ∧
    emptyRowGrid ≠ ⟨[[Cell.Letter 'a']]⟩ ∧
    emptyRowGrid.rows ≠ [] ∧
    (∀ row ∈ emptyRowGrid.rows, ∀ c ∈ row, allowedCell c = true) := by
  refine ⟨by decide, by decide, by decide, by decide⟩

end Crossword
